import Mathlib

/-!
Verification of the ChessAI Raspberry Pi server (`raspberry/raspberry_chessai.py`,
`raspberry/chessai_utils.py`) against its natural-language specification.
The Python code is shallowly embedded: pure helpers become Lean functions,
the stateful server becomes explicit state passing, and the external
collaborators (the python-chess rules engine and the Stockfish evaluation
engine) are modelled by an interface structure recording only the
documented guarantees the server relies on.
-/

/-- Models `ChessNotationConverter.square_to_coordinates`: converts a
two-character square name (e.g. `A1`) to `(row, col)` with
`col = ord(name[0].upper()) - ord('A')` and `row = 8 - int(name[1])`.
The two characters are passed separately (`name[0]`, `name[1]`);
integers are `Int`, as in Python. -/
def square_to_coordinates (c d : Char) : Int × Int :=
  ((8 : Int) - ((d.toNat : Int) - ('0'.toNat : Int)),
   (c.toUpper.toNat : Int) - ('A'.toNat : Int))

/-- Models `ChessNotationConverter.coordinates_to_square`: converts
`(row, col)` to the square name `chr(ord('A') + col)` followed by
`str(8 - row)`, returned as its two characters. -/
def coordinates_to_square (row col : Int) : Char × Char :=
  (Char.ofNat ((65 : Int) + col).toNat, Char.ofNat ((48 : Int) + (8 - row)).toNat)

/-- Decimal digit characters of a natural number, least significant first
(helper for Python `str(n)` interpolations and `json.dumps` of integers).
The fuel argument only makes the recursion structural; any fuel at least
the number itself gives the digits. -/
def natDigitsRevGo : Nat → Nat → List Char
  | n, 0 => [Char.ofNat (48 + n)]
  | n, fuel + 1 =>
    if n < 10 then [Char.ofNat (48 + n)]
    else Char.ofNat (48 + n % 10) :: natDigitsRevGo (n / 10) fuel

/-- Decimal digit characters of a natural number, least significant first. -/
def natDigitsRev (n : Nat) : List Char := natDigitsRevGo n n

/-- Decimal digit characters of a natural number, as `str(n)` prints them. -/
def natChars (n : Nat) : List Char := (natDigitsRev n).reverse

/-- Characters of a Python integer: optional minus sign, then decimal digits. -/
def intChars (i : Int) : List Char := (if i < 0 then ['-'] else []) ++ natChars i.natAbs

/-- Color of a chess piece, as in the external `chess` library. -/
inductive PieceColor where
  | white
  | black
deriving DecidableEq, Repr

/-- Kind of a chess piece, as in the external `chess` library. -/
inductive PieceKind where
  | pawn
  | knight
  | bishop
  | rook
  | queen
  | king
deriving DecidableEq, Repr

/-- A chess piece (the fields of `chess.Piece` the server reads). -/
structure Piece where
  color : PieceColor
  kind : PieceKind
deriving DecidableEq, Repr

/-- Models `chess.square(file_index, rank_index) = 8 * rank_index + file_index`. -/
def chessSquare (file rank : Nat) : Nat := 8 * rank + file

/-- Piece kind on the back rank of the standard starting position, by file. -/
def backRankKind : Nat → PieceKind
  | 0 => .rook
  | 1 => .knight
  | 2 => .bishop
  | 3 => .queen
  | 4 => .king
  | 5 => .bishop
  | 6 => .knight
  | _ => .rook

/-- The placement of `chess.Board()` (the standard starting position):
ranks 0 and 1 hold the white pieces and pawns, ranks 6 and 7 the black
pawns and pieces, everything else is empty. -/
def startingPlacement (sq : Nat) : Option Piece :=
  let rank := sq / 8
  let file := sq % 8
  if rank = 1 then some ⟨.white, .pawn⟩
  else if rank = 6 then some ⟨.black, .pawn⟩
  else if rank = 0 then some ⟨.white, backRankKind file⟩
  else if rank = 7 then some ⟨.black, backRankKind file⟩
  else none

/-- Models `ChessAIServer.get_initial_board_matrix` and
`BoardStateManager.get_board_matrix` (the two are textually the same loop):
for `rank` from 8 down to 1 and `file` from 0 to 7, append `1` when
`piece_at(chess.square(file, rank - 1))` holds a piece, else `0`. The
board is abstracted to its `piece_at` projection. -/
def get_board_matrix (pieceAt : Nat → Option Piece) : List (List Nat) :=
  (List.range 8).map (fun i =>
    (List.range 8).map (fun file =>
      if (pieceAt (chessSquare file (8 - i - 1))).isSome then 1 else 0))

/-- Models the flattening `[cell for row in matrix for cell in row]` used by
`send_board_matrix` and `create_board_matrix_message`. -/
def flattenMatrix (matrix : List (List Nat)) : List Nat := matrix.flatten

/-- First row-level error of `GameValidator.validate_board_setup`'s cell loop:
a cell outside `{0, 1}` at position `(i+1, j+1)`. -/
def findCellError (i j : Nat) : List Nat → Option (List Char)
  | [] => none
  | c :: rest =>
    if c ≠ 0 ∧ c ≠ 1 then
      some ("Célula (".toList ++ natChars (i + 1) ++ ",".toList ++ natChars (j + 1)
        ++ ") deve ser 0 ou 1".toList)
    else findCellError i (j + 1) rest

/-- First error of `validate_board_setup`'s row loop: a row that is not
8 wide, else the first bad cell of the row. -/
def findRowError : Nat → List (List Nat) → Option (List Char)
  | _, [] => none
  | i, row :: rest =>
    if row.length ≠ 8 then
      some ("Linha ".toList ++ natChars (i + 1) ++ " deve ter 8 colunas".toList)
    else
      match findCellError i 0 row with
      | some e => some e
      | none => findRowError (i + 1) rest

/-- Models `GameValidator.validate_board_setup`: 8 rows of 8 cells each, all
cells in `{0, 1}`, and exactly 32 pieces in total; returns the first failure
message, in the source's order of checks. -/
def validate_board_setup (matrix : List (List Nat)) : Bool × List Char :=
  if matrix.length ≠ 8 then (false, "Tabuleiro deve ter 8 linhas".toList)
  else
    match findRowError 0 matrix with
    | some e => (false, e)
    | none =>
      let total := (matrix.map List.sum).sum
      if total ≠ 32 then
        (false, "Número incorreto de peças: ".toList ++ natChars total
          ++ " (esperado: 32)".toList)
      else (true, "Configuração válida".toList)


/-- A JSON value as the Python `json` module represents this protocol's
messages: objects, arrays, strings, integers, booleans and `None`.
Strings are kept as character lists; floats do not occur in any message
of this system and are not modelled. -/
inductive JVal where
  | jnull : JVal
  | jbool : Bool → JVal
  | jint : Int → JVal
  | jstr : List Char → JVal
  | jarr : List JVal → JVal
  | jobj : List (List Char × JVal) → JVal

/-- The short escapes `json.dumps` emits for one character. Characters that
Python would escape as `\uXXXX` (other control characters and non-ASCII
under the default `ensure_ascii`) are outside the well-formedness predicate
`jwf` below and are not modelled. -/
def escapeChar (c : Char) : List Char :=
  if c = '"' then ['\\', '"']
  else if c = '\\' then ['\\', '\\']
  else if c = '\n' then ['\\', 'n']
  else if c = '\t' then ['\\', 't']
  else if c = '\r' then ['\\', 'r']
  else [c]

/-- A `json.dumps` string literal: quote, escaped body, quote. -/
def dumpStr (s : List Char) : List Char := '"' :: (s.flatMap escapeChar ++ ['"'])

mutual
/-- Models `json.dumps` with its default separators (`", "` between items,
`": "` after a key). -/
def dumps : JVal → List Char
  | .jnull => ['n', 'u', 'l', 'l']
  | .jbool true => ['t', 'r', 'u', 'e']
  | .jbool false => ['f', 'a', 'l', 's', 'e']
  | .jint i => intChars i
  | .jstr s => dumpStr s
  | .jarr xs => '[' :: (dumpsItems xs ++ [']'])
  | .jobj kvs => '{' :: (dumpsPairs kvs ++ ['}'])
termination_by structural x => x
/-- Array items serialized with `", "` between them. -/
def dumpsItems : List JVal → List Char
  | [] => []
  | [x] => dumps x
  | x :: y :: xs => dumps x ++ ',' :: ' ' :: dumpsItems (y :: xs)
termination_by structural x => x
/-- Object entries serialized as `key: value` with `", "` between them. -/
def dumpsPairs : List (List Char × JVal) → List Char
  | [] => []
  | [(k, v)] => dumpStr k ++ ':' :: ' ' :: dumps v
  | (k, v) :: p :: kvs =>
      dumpStr k ++ ':' :: ' ' :: dumps v ++ ',' :: ' ' :: dumpsPairs (p :: kvs)
termination_by structural x => x
end

/-- The whitespace characters the `json` module skips between tokens. -/
def isWsChar (c : Char) : Bool := c == ' ' || c == '\n' || c == '\t' || c == '\r'

/-- Python `str.strip()`: drop leading and trailing whitespace. -/
def stripChars (l : List Char) : List Char :=
  ((l.dropWhile isWsChar).reverse.dropWhile isWsChar).reverse

/-- A maximal run of decimal digits and the remaining input. -/
def takeDigits : List Char → List Char × List Char
  | [] => ([], [])
  | c :: cs =>
    if c.isDigit then
      let (ds, r) := takeDigits cs
      (c :: ds, r)
    else ([], c :: cs)

/-- The natural number a run of decimal digits denotes. -/
def digitsToNat (ds : List Char) : Nat :=
  ds.foldl (fun a c => a * 10 + (c.toNat - 48)) 0

/-- Undo one short escape (the `\uXXXX` form is not modelled). -/
def unescapeChar (c : Char) : Option Char :=
  if c = '"' then some '"'
  else if c = '\\' then some '\\'
  else if c = '/' then some '/'
  else if c = 'n' then some '\n'
  else if c = 't' then some '\t'
  else if c = 'r' then some '\r'
  else if c = 'b' then some (Char.ofNat 8)
  else if c = 'f' then some (Char.ofNat 12)
  else none

/-- Parse a string body after the opening quote: literal characters and
short escapes until the closing quote; a raw control character or an
unterminated string is an error, as in `json.loads` (strict mode). -/
def parseStrBody : List Char → Option (List Char × List Char)
  | [] => none
  | c :: cs =>
    if c = '"' then some ([], cs)
    else if c = '\\' then
      match cs with
      | [] => none
      | e :: cs' =>
        match unescapeChar e with
        | none => none
        | some ch =>
          match parseStrBody cs' with
          | none => none
          | some (s, r) => some (ch :: s, r)
    else if c.toNat < 32 then none
    else
      match parseStrBody cs with
      | none => none
      | some (s, r) => some (c :: s, r)

/-- Parse an integer literal: optional minus sign, then at least one digit
(the protocol carries no floats, so fractions and exponents are not
modelled). -/
def parseIntTok (cs : List Char) : Option (Int × List Char) :=
  match cs with
  | [] => none
  | c :: rest =>
    if c = '-' then
      let (ds, r) := takeDigits rest
      if ds.isEmpty then none else some (-(digitsToNat ds : Int), r)
    else
      let (ds, r) := takeDigits (c :: rest)
      if ds.isEmpty then none else some ((digitsToNat ds : Int), r)

mutual
/-- Recursive-descent model of the `json` module's value grammar on the
fragment this protocol uses; `fuel` only bounds recursion depth and is
instantiated with more than the input length, which always suffices. -/
def loadsVal : Nat → List Char → Option (JVal × List Char)
  | 0, _ => none
  | fuel + 1, cs =>
    match cs.dropWhile isWsChar with
    | 'n' :: 'u' :: 'l' :: 'l' :: r => some (.jnull, r)
    | 't' :: 'r' :: 'u' :: 'e' :: r => some (.jbool true, r)
    | 'f' :: 'a' :: 'l' :: 's' :: 'e' :: r => some (.jbool false, r)
    | '"' :: r =>
      match parseStrBody r with
      | some (s, r') => some (.jstr s, r')
      | none => none
    | '[' :: r =>
      match r.dropWhile isWsChar with
      | ']' :: r' => some (.jarr [], r')
      | other =>
        match loadsItems fuel other with
        | some (xs, r') => some (.jarr xs, r')
        | none => none
    | '{' :: r =>
      match r.dropWhile isWsChar with
      | '}' :: r' => some (.jobj [], r')
      | other =>
        match loadsPairs fuel other with
        | some (kvs, r') => some (.jobj kvs, r')
        | none => none
    | other =>
      match parseIntTok other with
      | some (i, r) => some (.jint i, r)
      | none => none
termination_by structural fuel => fuel
/-- One or more comma-separated array items up to the closing bracket. -/
def loadsItems : Nat → List Char → Option (List JVal × List Char)
  | 0, _ => none
  | fuel + 1, cs =>
    match loadsVal fuel cs with
    | none => none
    | some (v, r) =>
      match r.dropWhile isWsChar with
      | ',' :: r' =>
        (match loadsItems fuel r' with
         | some (vs, r'') => some (v :: vs, r'')
         | none => none)
      | ']' :: r' => some ([v], r')
      | _ => none
termination_by structural fuel => fuel
/-- One or more `key: value` entries up to the closing brace. -/
def loadsPairs : Nat → List Char → Option (List (List Char × JVal) × List Char)
  | 0, _ => none
  | fuel + 1, cs =>
    match cs.dropWhile isWsChar with
    | '"' :: r =>
      match parseStrBody r with
      | none => none
      | some (k, r1) =>
        match r1.dropWhile isWsChar with
        | ':' :: r2 =>
          match loadsVal fuel r2 with
          | none => none
          | some (v, r3) =>
            match r3.dropWhile isWsChar with
            | ',' :: r4 =>
              (match loadsPairs fuel r4 with
               | some (kvs, r5) => some ((k, v) :: kvs, r5)
               | none => none)
            | '}' :: r4 => some ([(k, v)], r4)
            | _ => none
        | _ => none
    | _ => none
termination_by structural fuel => fuel
end

/-- Models `json.loads`: parse one value, allow surrounding whitespace,
reject trailing input; `none` models a raised `JSONDecodeError`. -/
def loads (cs : List Char) : Option JVal :=
  match loadsVal (cs.length + 1) cs with
  | some (v, r) => if (r.dropWhile isWsChar).isEmpty then some v else none
  | none => none

/-- Well-formed characters for modelled strings: printable ASCII, or one of
the control characters with a short escape. -/
def okStrChar (c : Char) : Bool :=
  (decide (32 ≤ c.toNat) && decide (c.toNat < 127)) || c == '\n' || c == '\t' || c == '\r'

mutual
/-- Well-formedness of a modelled JSON value: strings over `okStrChar`,
and object keys distinct (a Python `dict` cannot hold two equal keys). -/
def jwf : JVal → Bool
  | .jnull => true
  | .jbool _ => true
  | .jint _ => true
  | .jstr s => s.all okStrChar
  | .jarr xs => jwfItems xs
  | .jobj kvs => jwfPairs kvs && decide ((kvs.map Prod.fst).Nodup)
termination_by structural x => x
/-- Well-formedness of every array item. -/
def jwfItems : List JVal → Bool
  | [] => true
  | x :: xs => jwf x && jwfItems xs
termination_by structural x => x
/-- Well-formedness of every object key and value. -/
def jwfPairs : List (List Char × JVal) → Bool
  | [] => true
  | (k, v) :: kvs => k.all okStrChar && jwf v && jwfPairs kvs
termination_by structural x => x
end

/-- Python `d[k] = v` on an insertion-ordered association list: an existing
key keeps its position and gets the new value, a new key is appended. -/
def dictInsert (kvs : List (List Char × JVal)) (k : List Char) (v : JVal) :
    List (List Char × JVal) :=
  if kvs.any (fun p => p.1 == k) then kvs.map (fun p => if p.1 == k then (k, v) else p)
  else kvs ++ [(k, v)]

/-- Python `{**base, **data}`: insert `data`'s entries into `base` in order. -/
def dictExtend (base data : List (List Char × JVal)) : List (List Char × JVal) :=
  data.foldl (fun acc p => dictInsert acc p.1 p.2) base

/-- Python `dict` lookup on the association list (the last binding of a key
wins, as when `dict` construction overwrites). -/
def dictGet (kvs : List (List Char × JVal)) (k : List Char) : Option JVal :=
  kvs.foldl (fun acc p => if p.1 == k then some p.2 else acc) none

/-- Models `CommunicationProtocol.create_message`: build
`{'type': msg_type, 'timestamp': int(time.time()), **data}` and serialize
it with `json.dumps`. The wall-clock timestamp is passed in explicitly. -/
def create_message (msg_type : List Char) (timestamp : Int)
    (data : List (List Char × JVal)) : List Char :=
  dumps (.jobj (dictExtend
    [("type".toList, .jstr msg_type), ("timestamp".toList, .jint timestamp)] data))

/-- Models `CommunicationProtocol.parse_message`:
`json.loads(json_str.strip())`, with `none` for the caught
`JSONDecodeError` (the method returns `None` then). -/
def parse_message (json_str : List Char) : Option JVal := loads (stripChars json_str)

/-- A move of the external `chess` library: origin and destination square
indices (0–63) and an optional promotion kind (the fields of `chess.Move`
the server reads; crazyhouse drop moves do not occur in this system). -/
structure UciMove where
  from_square : Nat
  to_square : Nat
  promotion : Option PieceKind := none
deriving DecidableEq, Repr

/-- Models `chess.square_name`: file letter `a`–`h`, then rank digit `1`–`8`. -/
def squareName (sq : Nat) : List Char :=
  [Char.ofNat (97 + sq % 8), Char.ofNat (49 + sq / 8)]

/-- Models `chess.piece_symbol` (the lowercase letter of a piece kind). -/
def pieceSymbol : PieceKind → Char
  | .pawn => 'p'
  | .knight => 'n'
  | .bishop => 'b'
  | .rook => 'r'
  | .queen => 'q'
  | .king => 'k'

/-- Models `chess.parse_square`: the index of a lowercase square name in
`chess.SQUARE_NAMES`; `none` models the raised `ValueError`. -/
def parseChessSquare (s : List Char) : Option Nat :=
  match s with
  | [f, r] =>
    if ('a' ≤ f ∧ f ≤ 'h') ∧ ('1' ≤ r ∧ r ≤ '8') then
      some (chessSquare (f.toNat - 97) (r.toNat - 49))
    else none
  | _ => none

/-- The piece kind a lowercase symbol denotes (`chess.PIECE_SYMBOLS.index`). -/
def symbolKind (c : Char) : Option PieceKind :=
  if c = 'p' then some .pawn
  else if c = 'n' then some .knight
  else if c = 'b' then some .bishop
  else if c = 'r' then some .rook
  else if c = 'q' then some .queen
  else if c = 'k' then some .king
  else none

/-- Models `chess.Move.from_uci` on standard moves: `0000` is the null
move; otherwise two lowercase square names and an optional promotion
symbol, with equal origin and destination rejected. `none` models the
raised `InvalidMoveError` (a `ValueError`). Crazyhouse drop strings
(`N@f3`), which the library parses into drop moves that are never legal
here, map to `none`: either way the caller's only use — the legality
check — fails and the same no-action branch runs. -/
def move_from_uci (s : List Char) : Option UciMove :=
  if s = ['0', '0', '0', '0'] then some ⟨0, 0, none⟩
  else
    match s with
    | [a, b, c, d] =>
      match parseChessSquare [a, b], parseChessSquare [c, d] with
      | some f, some t => if f = t then none else some ⟨f, t, none⟩
      | _, _ => none
    | [a, b, c, d, p] =>
      match parseChessSquare [a, b], parseChessSquare [c, d], symbolKind p with
      | some f, some t, some k => if f = t then none else some ⟨f, t, some k⟩
      | _, _, _ => none
    | _ => none

/-- Models `chess.Move.uci`: the two square names, then the promotion
symbol when present; `0000` for the null move. -/
def move_uci (m : UciMove) : List Char :=
  if m.from_square = 0 ∧ m.to_square = 0 ∧ m.promotion = none then ['0', '0', '0', '0']
  else
    squareName m.from_square ++ squareName m.to_square ++
      (match m.promotion with
       | some k => [pieceSymbol k]
       | none => [])

/-- The wire form the server puts in `move_options` messages:
`move.uci().upper()`. -/
def moveWire (m : UciMove) : List Char := (move_uci m).map Char.toUpper

/-- Interface model of the external collaborators (the `python-chess`
board and the Stockfish engine) as the server calls them: `B` is the
board type and the three properties are documented guarantees of
`python-chess` (a fresh board has the standard placement and an empty
move stack; `push` appends the move to the stack). `engine_play b = none`
and `engine_score b = none` model a raised engine exception. -/
structure ChessEngineModel (B : Type) where
  newBoard : B
  piece_at : B → Nat → Option Piece
  legal_moves : B → List UciMove
  push : B → UciMove → B
  move_stack : B → List UciMove
  turnWhite : B → Bool
  is_game_over : B → Bool
  engine_play : B → Option UciMove
  engine_score : B → Option Int
  piece_at_new : ∀ sq, piece_at newBoard sq = startingPlacement sq
  move_stack_new : move_stack newBoard = []
  move_stack_push : ∀ b m, move_stack (push b m) = move_stack b ++ [m]

/-- The mutable fields of `ChessAIServer` that the message handlers read
and write. -/
structure ServerState (B : Type) where
  board : B
  game_started : Bool
  waiting_for_move : Bool
  current_player_move : Option (List Char)
deriving Repr

/-- The dict `send_board_matrix` serializes: the 8×8 matrix flattened to
64 entries. -/
def boardMatrixMsg (matrix : List (List Nat)) : JVal :=
  .jobj [("type".toList, .jstr "board_matrix".toList),
         ("matrix".toList, .jarr ((flattenMatrix matrix).map (fun c => .jint (c : Int))))]

/-- The dict `send_move_options` serializes: the best move and at most four
alternatives, each as `move.uci().upper()`. -/
def moveOptionsMsg (best : UciMove) (alternatives : List UciMove) : JVal :=
  .jobj [("type".toList, .jstr "move_options".toList),
         ("best_move".toList, .jstr (moveWire best)),
         ("alternatives".toList,
          .jarr ((alternatives.take 4).map (fun m => .jstr (moveWire m))))]

/-- The dict `send_ai_move` serializes. -/
def aiMoveMsg (fromS toS : List Char) : JVal :=
  .jobj [("type".toList, .jstr "ai_move".toList),
         ("from".toList, .jstr fromS), ("to".toList, .jstr toS)]

/-- Models `ChessAIServer.handle_game_start`: install a fresh
`chess.Board()`, set `game_started`, clear `waiting_for_move`, and send
the initial occupancy matrix. Runs the same way from every state. -/
def handle_game_start {B : Type} (L : ChessEngineModel B) (s : ServerState B) :
    ServerState B × List JVal :=
  let b := L.newBoard
  ({ s with board := b, game_started := true, waiting_for_move := false },
   [boardMatrixMsg (get_board_matrix (L.piece_at b))])

/-- Models `ChessAIServer.get_possible_moves_from_square`: the legal moves
whose origin is the given square, kept in generation order. -/
def get_possible_moves_from_square {B : Type} (L : ChessEngineModel B) (b : B)
    (square : Nat) : List UciMove :=
  (L.legal_moves b).filter (fun m => m.from_square == square)

/-- The loop comparison `score > best_score`, where `best_score` starts as
`float('-inf')` (`none` here, smaller than every integer). -/
def beatsBest (score : Int) (best : Option Int) : Bool :=
  match best with
  | none => true
  | some b => decide (b < score)

/-- The selection loop of `get_best_move_from_options`: replace the best
candidate exactly when the new score strictly beats the best score. -/
def bestLoop (score : UciMove → Int) (best : UciMove) (bestScore : Option Int) :
    List UciMove → UciMove
  | [] => best
  | m :: ms =>
    if beatsBest (score m) bestScore then bestLoop score m (some (score m)) ms
    else bestLoop score best bestScore ms

/-- Models `ChessAIServer.get_best_move_from_options`: each candidate is
pushed onto the board, scored by `engine.analyse` relative to the side to
move, and popped again (the pure model keeps the board fixed, as push and
pop cancel). The first candidate whose score strictly beats the running
best wins. If the engine raises for any candidate the whole loop is
abandoned and the first candidate is returned as the fallback. `none`
only for an empty candidate list. -/
def get_best_move_from_options {B : Type} (L : ChessEngineModel B) (b : B)
    (moves : List UciMove) : Option UciMove :=
  match moves with
  | [] => none
  | m0 :: _ =>
    if moves.all (fun m => (L.engine_score (L.push b m)).isSome) then
      some (bestLoop (fun m => (L.engine_score (L.push b m)).getD 0) m0 none moves)
    else some m0

/-- Models `ChessAIServer.calculate_and_send_ai_move`: ask the engine for
its reply with the longer time budget, push it and send `ai_move`; an
engine exception (`none`) is caught and logged, nothing is sent. -/
def calculate_and_send_ai_move {B : Type} (L : ChessEngineModel B)
    (s : ServerState B) : ServerState B × List JVal :=
  match L.engine_play s.board with
  | none => (s, [])
  | some ai =>
    ({ s with board := L.push s.board ai },
     [aiMoveMsg ((squareName ai.from_square).map Char.toUpper)
        ((squareName ai.to_square).map Char.toUpper)])

/-- Models `ChessAIServer.handle_game_over`: log the result, then clear
`game_started`. -/
def handle_game_over {B : Type} (s : ServerState B) : ServerState B :=
  { s with game_started := false }

/-- Models `ChessAIServer.handle_player_move_complete`: with both squares
present, build the UCI string from the lowercased fields and parse it
(`ValueError` is caught); a legal move is pushed, then either the game is
over (handled and nothing sent) or the engine's reply is computed and
sent. The final `waiting_for_move = False` line runs on every path except
the two early returns (missing field, game over). No state flag guards
the handler. -/
def handle_player_move_complete {B : Type} (L : ChessEngineModel B)
    (s : ServerState B) (from_square to_square : List Char) :
    ServerState B × List JVal :=
  if from_square = [] ∨ to_square = [] then (s, [])
  else
    match move_from_uci (from_square.map Char.toLower ++ to_square.map Char.toLower) with
    | none => ({ s with waiting_for_move := false }, [])
    | some move =>
      if move ∈ L.legal_moves s.board then
        let b := L.push s.board move
        if L.is_game_over b then (handle_game_over { s with board := b }, [])
        else
          let so := calculate_and_send_ai_move L { s with board := b }
          ({ so.1 with waiting_for_move := false }, so.2)
      else ({ s with waiting_for_move := false }, [])

/-- Models `ChessAIServer.handle_player_move_origin`: guard that the named
square holds a white piece and that white is to move, compute the legal
moves from it, rank them, and send `move_options`; every failed guard
only logs. The flags are set after a successful send. -/
def handle_player_move_origin {B : Type} (L : ChessEngineModel B)
    (s : ServerState B) (from_square : List Char) : ServerState B × List JVal :=
  if from_square = [] then (s, [])
  else
    match parseChessSquare (from_square.map Char.toLower) with
    | none => (s, [])
    | some square =>
      match L.piece_at s.board square with
      | none => (s, [])
      | some piece =>
        if piece.color ≠ .white then (s, [])
        else if ¬ L.turnWhite s.board then (s, [])
        else
          let possible := get_possible_moves_from_square L s.board square
          if possible = [] then (s, [])
          else
            match get_best_move_from_options L s.board possible with
            | none => (s, [])
            | some best =>
              let alternatives := (possible.filter (fun m => m != best)).take 3
              ({ s with current_player_move := some from_square,
                        waiting_for_move := true },
               [moveOptionsMsg best alternatives])

/-- Models `ChessAIServer.handle_ai_move_confirmed`: clear
`waiting_for_move`; when the rules engine reports the game over, handle
that, else only log. Nothing is sent either way. -/
def handle_ai_move_confirmed {B : Type} (L : ChessEngineModel B)
    (s : ServerState B) : ServerState B × List JVal :=
  let s1 : ServerState B := { s with waiting_for_move := false }
  if L.is_game_over s.board then (handle_game_over s1, []) else (s1, [])

/-- The handlers read message fields with `data.get(key, '')`: a missing
key is the empty string. A non-string value is collapsed to `none`: a
falsy one makes the handler return at its emptiness check and a truthy
one raises `AttributeError` at `.lower()`, which the dispatcher's broad
`except` swallows — on either path nothing changes and nothing is sent,
which is what `none` maps to below. -/
def getStrField (kvs : List (List Char × JVal)) (k : List Char) : Option (List Char) :=
  match dictGet kvs k with
  | none => some []
  | some (.jstr s) => some s
  | some _ => none

/-- Models `ChessAIServer.process_received_message`: decode the frame with
`json.loads` and dispatch on `data.get('type', '')`. A decode error, a
frame that is not an object, an unknown or missing type, and any
exception escaping a handler are all logged only: the state is unchanged
and nothing is sent. -/
def process_received_message {B : Type} (L : ChessEngineModel B)
    (s : ServerState B) (message : List Char) : ServerState B × List JVal :=
  match loads message with
  | none => (s, [])
  | some (.jobj kvs) =>
    match dictGet kvs ("type".toList) with
    | some (.jstr t) =>
      if t = "game_start".toList then handle_game_start L s
      else if t = "player_move".toList then
        match getStrField kvs ("from".toList) with
        | some f => handle_player_move_origin L s f
        | none => (s, [])
      else if t = "player_move_complete".toList then
        match getStrField kvs ("from".toList), getStrField kvs ("to".toList) with
        | some f, some t2 => handle_player_move_complete L s f t2
        | _, _ => (s, [])
      else if t = "ai_move_confirmed".toList then handle_ai_move_confirmed L s
      else (s, [])
    | _ => (s, [])
  | some _ => (s, [])

/-- Models `BoardStateManager`: the python-chess board plus the parallel
UCI history list. -/
structure BoardStateManager (B : Type) where
  current_state : B
  move_history : List (List Char)

/-- Models `BoardStateManager.update_board`: parse the UCI string
(`ValueError` caught, giving `False`), and when the move is legal push it
and append to the history; otherwise `False` with nothing touched. -/
def update_board {B : Type} (L : ChessEngineModel B) (m : BoardStateManager B)
    (uciStr : List Char) : Bool × BoardStateManager B :=
  match move_from_uci uciStr with
  | none => (false, m)
  | some move =>
    if move ∈ L.legal_moves m.current_state then
      (true, ⟨L.push m.current_state move, m.move_history ++ [uciStr]⟩)
    else (false, m)

/-- A small concrete instance of the engine interface, used to evaluate
the server on closed inputs: the board is its own move stack; on the
fresh board exactly `e2e4` (squares 12 → 28) is offered as legal — as it
is in real chess — and the engine replies `e7e5` (52 → 36). -/
def demoLib : ChessEngineModel (List UciMove) where
  newBoard := []
  piece_at b sq := if b = [] then startingPlacement sq else none
  legal_moves b := if b = [] then [⟨12, 28, none⟩] else []
  push b m := b ++ [m]
  move_stack b := b
  turnWhite b := decide (b.length % 2 = 0)
  is_game_over _ := false
  engine_play b := if b = [⟨12, 28, none⟩] then some ⟨52, 36, none⟩ else none
  engine_score b := some ((b.length : Int))
  piece_at_new := by intro sq; rfl
  move_stack_new := rfl
  move_stack_push := by intro b m; rfl

/-- The frame the device sends for a completed `E2 → E4` move (built with
the device-side `create_message`, so it carries a timestamp). -/
def pmcFrame : List Char :=
  create_message "player_move_complete".toList 1700000000
    [("from".toList, .jstr "E2".toList), ("to".toList, .jstr "E4".toList)]

/-- The per-candidate engine score `get_best_move_from_options` compares
(defaulted after the all-candidates-scored check). -/
def candidateScore {B : Type} (L : ChessEngineModel B) (b : B) (m : UciMove) : Int :=
  (L.engine_score (L.push b m)).getD 0

/-- The state right after `game_start` on the demo instance: board fresh,
`game_started` set, `waiting_for_move` clear — no `move_options` offered. -/
def demoAwaitingOrigin : ServerState (List UciMove) :=
  (handle_game_start demoLib ⟨[], false, false, none⟩).1

/-- A remainder that cannot extend a serialized integer: empty, or headed
by a non-digit (every delimiter `json.dumps` writes after a value
qualifies). -/
def intBoundary : List Char → Bool
  | [] => true
  | c :: _ => !c.isDigit

/-! ## Theorems -/

/-- Both converter round trips at the 64 letter-digit pairs, enumerated. -/
theorem coords_of_square_of_coords_key :
    ∀ k j : Fin 8,
      coordinates_to_square
          (square_to_coordinates (Char.ofNat (65 + k.val)) (Char.ofNat (49 + j.val))).1
          (square_to_coordinates (Char.ofNat (65 + k.val)) (Char.ofNat (49 + j.val))).2
        = (Char.ofNat (65 + k.val), Char.ofNat (49 + j.val)) := by decide

/-- The coordinate round trip at the 64 pairs of coordinates, enumerated. -/
theorem square_of_coords_of_square_key :
    ∀ r l : Fin 8,
      square_to_coordinates
          (coordinates_to_square (r.val : Int) (l.val : Int)).1
          (coordinates_to_square (r.val : Int) (l.val : Int)).2
        = ((r.val : Int), (l.val : Int)) := by decide

/-- C10: the square-name converters are mutual inverses on their valid
domains: for a name made of a letter `A`–`H` (code 65–72) and a digit
`1`–`8` (code 49–56), `coordinates_to_square` undoes
`square_to_coordinates`; and for `row`, `col` both in `0`–`7`,
`square_to_coordinates` undoes `coordinates_to_square`. -/
theorem square_converters_inverse (c d : Char) (row col : Int)
    (hc1 : 65 ≤ c.toNat) (hc2 : c.toNat ≤ 72)
    (hd1 : 49 ≤ d.toNat) (hd2 : d.toNat ≤ 56)
    (hr1 : 0 ≤ row) (hr2 : row ≤ 7) (hl1 : 0 ≤ col) (hl2 : col ≤ 7) :
    coordinates_to_square (square_to_coordinates c d).1 (square_to_coordinates c d).2 = (c, d)
    ∧ square_to_coordinates (coordinates_to_square row col).1 (coordinates_to_square row col).2
        = (row, col) := by
  constructor
  · have hk : c.toNat - 65 < 8 := by omega
    have hj : d.toNat - 49 < 8 := by omega
    have hc : c = Char.ofNat (65 + (c.toNat - 65)) := by
      rw [Nat.add_sub_cancel' hc1, Char.ofNat_toNat]
    have hd : d = Char.ofNat (49 + (d.toNat - 49)) := by
      rw [Nat.add_sub_cancel' hd1, Char.ofNat_toNat]
    rw [hc, hd]
    exact coords_of_square_of_coords_key ⟨_, hk⟩ ⟨_, hj⟩
  · have hr : row = ((row.toNat : Nat) : Int) := (Int.toNat_of_nonneg hr1).symm
    have hl : col = ((col.toNat : Nat) : Int) := (Int.toNat_of_nonneg hl1).symm
    rw [hr, hl]
    exact square_of_coords_of_square_key ⟨row.toNat, by omega⟩ ⟨col.toNat, by omega⟩

/-- Witness for C10 at the concrete square `E2` and coordinates `(6, 4)`. -/
theorem square_converters_inverse_witness :
    coordinates_to_square (square_to_coordinates 'E' '2').1 (square_to_coordinates 'E' '2').2
        = ('E', '2')
    ∧ square_to_coordinates (coordinates_to_square 6 4).1 (coordinates_to_square 6 4).2
        = ((6 : Int), (4 : Int)) :=
  square_converters_inverse 'E' '2' 6 4 (by decide) (by decide) (by decide) (by decide)
    (by decide) (by decide) (by decide) (by decide)

/-- C4: for every board placement, the flattened occupancy matrix has
exactly 64 entries, each of them `0` or `1`; and for the starting position
that a reset installs, the entries sum to exactly 32 (and the source's own
`validate_board_setup` accepts the matrix). -/
theorem occupancy_matrix_invariant :
    ∀ pieceAt : Nat → Option Piece,
      (flattenMatrix (get_board_matrix pieceAt)).length = 64
      ∧ (∀ x ∈ flattenMatrix (get_board_matrix pieceAt), x = 0 ∨ x = 1)
      ∧ (flattenMatrix (get_board_matrix startingPlacement)).sum = 32
      ∧ validate_board_setup (get_board_matrix startingPlacement)
          = (true, "Configuração válida".toList) := by
  intro pieceAt
  refine ⟨?_, ?_, by decide, by decide⟩
  · simp [flattenMatrix, get_board_matrix, List.length_flatten, List.map_map,
      Function.comp_def]
  · intro x hx
    simp only [flattenMatrix, get_board_matrix, List.mem_flatten, List.mem_map,
      List.mem_range] at hx
    obtain ⟨row, ⟨⟨i, -, rfl⟩, hxr⟩⟩ := hx
    obtain ⟨f, -, rfl⟩ := List.mem_map.mp hxr
    split <;> simp


/-- C5: every move returned by the legal-moves-from-square query has the
asked-for origin and belongs to the position's full legal-move set. -/
theorem possible_moves_from_square_sound {B : Type} (L : ChessEngineModel B)
    (b : B) (square : Nat) (m : UciMove)
    (hm : m ∈ get_possible_moves_from_square L b square) :
    m.from_square = square ∧ m ∈ L.legal_moves b := by
  unfold get_possible_moves_from_square at hm
  have h1 := List.of_mem_filter hm
  have h2 := List.mem_of_mem_filter hm
  simp only [beq_iff_eq] at h1
  exact ⟨h1, h2⟩

/-- Witness for C5: on the demo instance, `e2e4` is returned from square 12
and is a legal move there. -/
theorem possible_moves_from_square_sound_witness :
    (⟨12, 28, none⟩ : UciMove).from_square = 12
    ∧ (⟨12, 28, none⟩ : UciMove) ∈ demoLib.legal_moves [] :=
  possible_moves_from_square_sound demoLib [] 12 ⟨12, 28, none⟩ (by decide)

/-- C6: when the UCI string does not parse, or parses to a move that is not
legal in the current position, `update_board` returns `False` and the
manager — board, move history, and hence the occupancy matrix — is
exactly the one passed in: no partial mutation. -/
theorem update_board_illegal_unchanged {B : Type} (L : ChessEngineModel B)
    (m : BoardStateManager B) (uciStr : List Char)
    (h : move_from_uci uciStr = none
      ∨ ∃ mv, move_from_uci uciStr = some mv ∧ mv ∉ L.legal_moves m.current_state) :
    update_board L m uciStr = (false, m)
    ∧ (update_board L m uciStr).2.current_state = m.current_state
    ∧ (update_board L m uciStr).2.move_history = m.move_history
    ∧ get_board_matrix (L.piece_at (update_board L m uciStr).2.current_state)
        = get_board_matrix (L.piece_at m.current_state) := by
  have key : update_board L m uciStr = (false, m) := by
    unfold update_board
    rcases h with hn | ⟨mv, hsome, hnl⟩
    · rw [hn]
    · rw [hsome]
      simp only [hnl, if_false]
  rw [key]
  exact ⟨rfl, rfl, rfl, rfl⟩

/-- Witness for C6: on the demo instance `e2e5` parses but is not legal,
and `update_board` rejects it leaving the manager untouched. -/
theorem update_board_illegal_unchanged_witness :
    update_board demoLib ⟨[], []⟩ "e2e5".toList = (false, ⟨[], []⟩)
    ∧ (update_board demoLib ⟨[], []⟩ "e2e5".toList).2.current_state
        = (⟨[], []⟩ : BoardStateManager (List UciMove)).current_state
    ∧ (update_board demoLib ⟨[], []⟩ "e2e5".toList).2.move_history
        = (⟨[], []⟩ : BoardStateManager (List UciMove)).move_history
    ∧ get_board_matrix (demoLib.piece_at
          (update_board demoLib ⟨[], []⟩ "e2e5".toList).2.current_state)
        = get_board_matrix (demoLib.piece_at
            (⟨[], []⟩ : BoardStateManager (List UciMove)).current_state) :=
  update_board_illegal_unchanged demoLib ⟨[], []⟩ "e2e5".toList
    (Or.inr ⟨⟨12, 36, none⟩, rfl, by decide⟩)

/-- C8: `game_start` from any state resets the board to a fresh
`chess.Board()` — standard 32-piece placement, empty move history — emits
exactly the one `board_matrix` message carrying that matrix, and moves to
the awaiting-origin flags (`game_started`, not `waiting_for_move`);
nothing of the prior state influences any of this. -/
theorem game_start_resets {B : Type} (L : ChessEngineModel B) (s : ServerState B) :
    (handle_game_start L s).1.board = L.newBoard
    ∧ L.move_stack (handle_game_start L s).1.board = []
    ∧ (handle_game_start L s).1.game_started = true
    ∧ (handle_game_start L s).1.waiting_for_move = false
    ∧ (handle_game_start L s).2
        = [boardMatrixMsg (get_board_matrix (L.piece_at L.newBoard))]
    ∧ get_board_matrix (L.piece_at L.newBoard) = get_board_matrix startingPlacement
    ∧ (flattenMatrix (get_board_matrix (L.piece_at L.newBoard))).sum = 32 := by
  have hmat : get_board_matrix (L.piece_at L.newBoard) = get_board_matrix startingPlacement :=
    congrArg get_board_matrix (funext L.piece_at_new)
  refine ⟨rfl, L.move_stack_new, rfl, rfl, rfl, hmat, ?_⟩
  rw [hmat]
  decide

/-- The selection loop returns the first running maximum: the candidates
before the result score strictly below it, those after score at most it. -/
theorem bestLoop_first_max (score : UciMove → Int) :
    ∀ (ms : List UciMove) (best : UciMove),
      ∃ l₁ l₂, best :: ms = l₁ ++ bestLoop score best (some (score best)) ms :: l₂
        ∧ (∀ x ∈ l₁, score x < score (bestLoop score best (some (score best)) ms))
        ∧ (∀ x ∈ l₂, score x ≤ score (bestLoop score best (some (score best)) ms)) := by
  intro ms
  induction ms with
  | nil =>
    intro best
    exact ⟨[], [], rfl, by simp, by simp⟩
  | cons m ms ih =>
    intro best
    by_cases hgt : score best < score m
    · have hstep : bestLoop score best (some (score best)) (m :: ms)
          = bestLoop score m (some (score m)) ms := by
        simp [bestLoop, beatsBest, hgt]
      obtain ⟨l₁, l₂, heq, hlt, hle⟩ := ih m
      rw [hstep]
      have hm_le : score m ≤ score (bestLoop score m (some (score m)) ms) := by
        cases l₁ with
        | nil =>
          have h0 : m = bestLoop score m (some (score m)) ms := by
            have := congrArg List.head? heq
            simpa using this
          have := congrArg score h0
          omega
        | cons a l₁' =>
          have ha : m = a := by
            have := congrArg List.head? heq
            simpa using this
          have hlt_a := hlt a (by simp)
          have := congrArg score ha
          omega
      refine ⟨best :: l₁, l₂, by rw [List.cons_append, ← heq], ?_, hle⟩
      intro x hx
      rcases List.mem_cons.mp hx with rfl | hx1
      · omega
      · exact hlt x hx1
    · have hstep : bestLoop score best (some (score best)) (m :: ms)
          = bestLoop score best (some (score best)) ms := by
        simp [bestLoop, beatsBest, hgt]
      obtain ⟨l₁, l₂, heq, hlt, hle⟩ := ih best
      rw [hstep]
      cases l₁ with
      | nil =>
        have hr : best = bestLoop score best (some (score best)) ms := by
          have := congrArg List.head? heq
          simpa using this
        have hms : ms = l₂ := by
          have := congrArg List.tail heq
          simpa using this
        refine ⟨[], m :: l₂, ?_, by simp, ?_⟩
        · rw [List.nil_append, ← hr, ← hms]
        · intro x hx
          rcases List.mem_cons.mp hx with rfl | hx2
          · have := congrArg score hr
            omega
          · exact hle x hx2
      | cons a l₁' =>
        have ha : best = a := by
          have := congrArg List.head? heq
          simpa using this
        have hms : ms = l₁' ++ bestLoop score best (some (score best)) ms :: l₂ := by
          have := congrArg List.tail heq
          simpa using this
        have hbest_lt : score best < score (bestLoop score best (some (score best)) ms) := by
          have hlt_a := hlt a (by simp)
          have := congrArg score ha
          omega
        refine ⟨best :: m :: l₁', l₂, ?_, ?_, hle⟩
        · conv_lhs => rw [hms]
          simp
        · intro x hx
          rcases List.mem_cons.mp hx with rfl | hx2
          · exact hbest_lt
          · rcases List.mem_cons.mp hx2 with rfl | hx3
            · omega
            · exact hlt x (List.mem_cons_of_mem a hx3)

/-- C7: with a score available for every candidate, the Move Advisor
returns the first candidate attaining the maximal score: candidates
generated before it score strictly below it, candidates after it score at
most it (stable tie-break, order never rearranged). -/
theorem best_move_first_argmax {B : Type} (L : ChessEngineModel B) (b : B)
    (m0 : UciMove) (rest : List UciMove)
    (hall : ∀ m ∈ m0 :: rest, (L.engine_score (L.push b m)).isSome = true) :
    ∃ r l₁ l₂,
      get_best_move_from_options L b (m0 :: rest) = some r
      ∧ m0 :: rest = l₁ ++ r :: l₂
      ∧ (∀ x ∈ l₁, candidateScore L b x < candidateScore L b r)
      ∧ (∀ x ∈ l₂, candidateScore L b x ≤ candidateScore L b r) := by
  have hcond : ((m0 :: rest).all fun m => (L.engine_score (L.push b m)).isSome) = true :=
    List.all_eq_true.mpr hall
  obtain ⟨l₁, l₂, heq, hlt, hle⟩ := bestLoop_first_max (candidateScore L b) rest m0
  refine ⟨bestLoop (candidateScore L b) m0 (some (candidateScore L b m0)) rest, l₁, l₂,
    ?_, heq, hlt, hle⟩
  simp only [get_best_move_from_options, hcond, if_true]
  rfl

/-- Witness for C7 at the demo instance's single candidate list. -/
theorem best_move_first_argmax_witness :
    ∃ r l₁ l₂,
      get_best_move_from_options demoLib [] [⟨12, 28, none⟩] = some r
      ∧ [(⟨12, 28, none⟩ : UciMove)] = l₁ ++ r :: l₂
      ∧ (∀ x ∈ l₁, candidateScore demoLib [] x < candidateScore demoLib [] r)
      ∧ (∀ x ∈ l₂, candidateScore demoLib [] x ≤ candidateScore demoLib [] r) :=
  best_move_first_argmax demoLib [] ⟨12, 28, none⟩ [] (by decide)

/-- C9 counterexample: the promotion move `e7e8q` is placed on the wire as
`move.uci().upper() = "E7E8Q"` — five characters, not four — in the
`best_move` field of `move_options`. -/
theorem move_wire_promotion_cex :
    moveWire ⟨52, 60, some .queen⟩ = "E7E8Q".toList
    ∧ (moveWire ⟨52, 60, some .queen⟩).length ≠ 4
    ∧ moveOptionsMsg ⟨52, 60, some .queen⟩ []
        = JVal.jobj [("type".toList, .jstr "move_options".toList),
                     ("best_move".toList, .jstr "E7E8Q".toList),
                     ("alternatives".toList, .jarr [])] :=
  ⟨by decide, by decide, rfl⟩

/-- C9, amended: the wire form in `move_options` (for `best_move` and every
`alternatives` entry alike) is `move.uci().upper()`: the upper-cased
origin and destination square names, followed by the upper-cased
promotion letter when the move carries one — so exactly 4 characters
precisely for promotion-free (non-null) moves, 5 with a promotion. -/
theorem move_wire_format (best : UciMove) (alts : List UciMove)
    (hnn : ¬(best.from_square = 0 ∧ best.to_square = 0 ∧ best.promotion = none)) :
    moveWire best
      = (squareName best.from_square).map Char.toUpper
        ++ (squareName best.to_square).map Char.toUpper
        ++ (match best.promotion with
            | some k => [(pieceSymbol k).toUpper]
            | none => [])
    ∧ ((moveWire best).length = 4 ↔ best.promotion = none)
    ∧ moveOptionsMsg best alts
        = JVal.jobj [("type".toList, .jstr "move_options".toList),
                     ("best_move".toList, .jstr (moveWire best)),
                     ("alternatives".toList,
                      .jarr ((alts.take 4).map (fun m => .jstr (moveWire m))))] := by
  have huci : move_uci best
      = squareName best.from_square ++ squareName best.to_square
        ++ (match best.promotion with | some k => [pieceSymbol k] | none => []) := by
    unfold move_uci
    rw [if_neg hnn]
  refine ⟨?_, ?_, rfl⟩
  · rw [moveWire, huci]
    cases hp : best.promotion <;> simp [hp, List.map_append]
  · rw [moveWire, huci]
    cases hp : best.promotion <;> simp [hp, squareName]

/-- Witness for C9's amended form at the plain move `e2e4`. -/
theorem move_wire_format_witness :
    moveWire ⟨12, 28, none⟩
      = (squareName (12 : Nat)).map Char.toUpper
        ++ (squareName (28 : Nat)).map Char.toUpper
        ++ (match (none : Option PieceKind) with
            | some k => [(pieceSymbol k).toUpper]
            | none => [])
    ∧ ((moveWire ⟨12, 28, none⟩).length = 4 ↔ (none : Option PieceKind) = none)
    ∧ moveOptionsMsg ⟨12, 28, none⟩ []
        = JVal.jobj [("type".toList, .jstr "move_options".toList),
                     ("best_move".toList, .jstr (moveWire ⟨12, 28, none⟩)),
                     ("alternatives".toList,
                      .jarr (([].take 4).map (fun m => .jstr (moveWire m))))] :=
  move_wire_format ⟨12, 28, none⟩ [] (by decide)

/-- C1 counterexample: in the state right after `game_start` — the
original claim's `AwaitingOrigin`, with no `move_options` offered and
`waiting_for_move` clear — the inbound frame
`player_move_complete {from: E2, to: E4}` IS acted upon: the board is
mutated and exactly one outbound (`ai_move`) message is emitted. -/
theorem pmc_acts_before_destination_cex :
    demoAwaitingOrigin.waiting_for_move = false
    ∧ demoAwaitingOrigin.game_started = true
    ∧ (process_received_message demoLib demoAwaitingOrigin pmcFrame).1.board
        ≠ demoAwaitingOrigin.board
    ∧ (process_received_message demoLib demoAwaitingOrigin pmcFrame).2.length = 1 :=
  ⟨rfl, rfl, by decide, by decide⟩

/-- C1, amended: `handle_player_move_complete` is gated by move legality
alone, never by the session state. In every state (`Idle`,
`AwaitingOrigin` or any other): a message with a missing field, an
unparseable move, or an illegal move causes no board mutation and no
outbound message; a legal move is acted upon — the board's move stack
grows — even though no `move_options` was ever offered. -/
theorem pmc_gated_by_legality_only {B : Type} (L : ChessEngineModel B)
    (s : ServerState B) (f t : List Char) :
    ((f = [] ∨ t = []
        ∨ move_from_uci (f.map Char.toLower ++ t.map Char.toLower) = none
        ∨ (∃ mv, move_from_uci (f.map Char.toLower ++ t.map Char.toLower) = some mv
            ∧ mv ∉ L.legal_moves s.board)) →
      (handle_player_move_complete L s f t).1.board = s.board
      ∧ (handle_player_move_complete L s f t).2 = [])
    ∧ (∀ mv, move_from_uci (f.map Char.toLower ++ t.map Char.toLower) = some mv →
        mv ∈ L.legal_moves s.board → f ≠ [] → t ≠ [] →
        (L.move_stack (handle_player_move_complete L s f t).1.board).length
          > (L.move_stack s.board).length) := by
  constructor
  · intro h
    by_cases hft : f = [] ∨ t = []
    · rcases hft with hf | ht
      · simp [handle_player_move_complete, hf]
      · simp [handle_player_move_complete, ht]
    · rcases h with hf | ht | hn | ⟨mv, hs, hnl⟩
      · exact absurd (Or.inl hf) hft
      · exact absurd (Or.inr ht) hft
      · simp [handle_player_move_complete, hft, hn]
      · simp [handle_player_move_complete, hft, hs, hnl]
  · intro mv hmv hleg hf ht
    have hne : ¬(f = [] ∨ t = []) := not_or.mpr ⟨hf, ht⟩
    by_cases hover : L.is_game_over (L.push s.board mv)
    · simp only [handle_player_move_complete, hne, hmv, hleg, hover, if_true, if_false,
        ite_false, ite_true, if_neg hne, if_pos hleg, handle_game_over]
      rw [L.move_stack_push]
      simp
    · cases hep : L.engine_play (L.push s.board mv) with
      | none =>
        simp only [handle_player_move_complete, hmv, hover, if_neg hne, if_pos hleg,
          Bool.false_eq_true, if_false, calculate_and_send_ai_move, hep]
        rw [L.move_stack_push]
        simp
      | some ai =>
        simp only [handle_player_move_complete, hmv, hover, if_neg hne, if_pos hleg,
          Bool.false_eq_true, if_false, calculate_and_send_ai_move, hep]
        rw [L.move_stack_push, L.move_stack_push]
        simp

/-- The numeral character of one decimal digit carries that digit. -/
theorem digit_char_spec (k : Nat) (h : k < 10) :
    (Char.ofNat (48 + k)).toNat = 48 + k ∧ (Char.ofNat (48 + k)).isDigit = true := by
  have key : ∀ j : Fin 10,
      (Char.ofNat (48 + j.val)).toNat = 48 + j.val
      ∧ (Char.ofNat (48 + j.val)).isDigit = true := by decide
  exact key ⟨k, h⟩

/-- Every character `natDigitsRevGo` produces is a digit (for honest fuel). -/
theorem natDigitsRevGo_digits :
    ∀ fuel n, n ≤ fuel → ∀ c ∈ natDigitsRevGo n fuel, c.isDigit = true := by
  intro fuel
  induction fuel with
  | zero =>
    intro n hn c hc
    have h0 : n = 0 := Nat.le_zero.mp hn
    subst h0
    simp only [natDigitsRevGo, List.mem_singleton] at hc
    subst hc
    exact (digit_char_spec 0 (by omega)).2
  | succ f ih =>
    intro n hn c hc
    simp only [natDigitsRevGo] at hc
    by_cases h10 : n < 10
    · rw [if_pos h10] at hc
      simp only [List.mem_singleton] at hc
      subst hc
      exact (digit_char_spec n h10).2
    · rw [if_neg h10] at hc
      rcases List.mem_cons.mp hc with rfl | hc'
      · exact (digit_char_spec (n % 10) (Nat.mod_lt _ (by omega))).2
      · exact ih (n / 10) (by omega) c hc'

/-- Folding the digits (least significant first) back gives the number. -/
theorem natDigitsRevGo_value :
    ∀ fuel n, n ≤ fuel →
      List.foldr (fun c acc => acc * 10 + (c.toNat - 48)) 0 (natDigitsRevGo n fuel) = n := by
  intro fuel
  induction fuel with
  | zero =>
    intro n hn
    have h0 : n = 0 := Nat.le_zero.mp hn
    subst h0
    simp [natDigitsRevGo, (digit_char_spec 0 (by omega)).1]
  | succ f ih =>
    intro n hn
    simp only [natDigitsRevGo]
    by_cases h10 : n < 10
    · rw [if_pos h10]
      simp [(digit_char_spec n h10).1]
    · rw [if_neg h10]
      simp only [List.foldr_cons]
      rw [ih (n / 10) (by omega), (digit_char_spec (n % 10) (Nat.mod_lt _ (by omega))).1]
      omega

/-- The digit run of a natural number is never empty. -/
theorem natDigitsRevGo_ne_nil : ∀ fuel n, natDigitsRevGo n fuel ≠ [] := by
  intro fuel n
  cases fuel with
  | zero => simp [natDigitsRevGo]
  | succ f =>
    simp only [natDigitsRevGo]
    split <;> simp

/-- Every character of `natChars n` is a digit. -/
theorem natChars_digits (n : Nat) : ∀ c ∈ natChars n, c.isDigit = true := by
  intro c hc
  rw [natChars, natDigitsRev, List.mem_reverse] at hc
  exact natDigitsRevGo_digits n n le_rfl c hc

/-- Reading the decimal characters of `n` back gives `n`. -/
theorem digitsToNat_natChars (n : Nat) : digitsToNat (natChars n) = n := by
  rw [digitsToNat, natChars, natDigitsRev, List.foldl_reverse]
  exact natDigitsRevGo_value n n le_rfl

/-- `natChars n` is never empty. -/
theorem natChars_ne_nil (n : Nat) : natChars n ≠ [] := by
  rw [natChars, natDigitsRev]
  simp [natDigitsRevGo_ne_nil]

/-- `natChars n` starts with a digit. -/
theorem natChars_cons (n : Nat) :
    ∃ c t, natChars n = c :: t ∧ c.isDigit = true := by
  cases h : natChars n with
  | nil => exact absurd h (natChars_ne_nil n)
  | cons c t =>
    exact ⟨c, t, rfl, natChars_digits n c (h ▸ List.mem_cons_self c t)⟩

/-- A digit character is none of the tokenizer's special characters. -/
theorem digit_char_facts {c : Char} (h : c.isDigit = true) :
    c ≠ '-' ∧ isWsChar c = false ∧ c ≠ ']' ∧ c ≠ '}' ∧ c ≠ ','
    ∧ c ≠ 'n' ∧ c ≠ 't' ∧ c ≠ 'f' ∧ c ≠ '"' ∧ c ≠ '[' ∧ c ≠ '{' := by
  have hb : 48 ≤ c.toNat ∧ c.toNat ≤ 57 := by
    simp only [Char.isDigit, decide_eq_true_eq, Bool.and_eq_true] at h
    exact ⟨h.1, h.2⟩
  have hne : ∀ d : Char, (d.toNat < 48 ∨ 57 < d.toNat) → c ≠ d := by
    intro d hd h'
    rw [h'] at hb
    omega
  have hws : isWsChar c = false := by
    simp only [isWsChar, Bool.or_eq_false_iff, beq_eq_false_iff_ne]
    exact ⟨⟨⟨hne ' ' (by decide), hne '\n' (by decide)⟩, hne '\t' (by decide)⟩,
      hne '\r' (by decide)⟩
  exact ⟨hne '-' (by decide), hws, hne ']' (by decide), hne '}' (by decide),
    hne ',' (by decide), hne 'n' (by decide), hne 't' (by decide), hne 'f' (by decide),
    hne '"' (by decide), hne '[' (by decide), hne '{' (by decide)⟩

/-- `takeDigits` stops at a non-digit boundary. -/
theorem takeDigits_boundary {cs : List Char} (h : intBoundary cs = true) :
    takeDigits cs = ([], cs) := by
  cases cs with
  | nil => rfl
  | cons c t =>
    simp only [intBoundary, Bool.not_eq_true'] at h
    simp [takeDigits, h]

/-- The tokenizer takes a whole digit run and stops at the boundary. -/
theorem takeDigits_digits_prefix {rest : List Char} (hrest : intBoundary rest = true) :
    ∀ ds : List Char, (∀ c ∈ ds, c.isDigit = true) → takeDigits (ds ++ rest) = (ds, rest) := by
  intro ds
  induction ds with
  | nil =>
    intro _
    exact takeDigits_boundary hrest
  | cons c t ih =>
    intro hall
    have h1 : c.isDigit = true := hall c (List.mem_cons_self c t)
    have h2 := ih (fun x hx => hall x (List.mem_cons_of_mem c hx))
    simp only [List.cons_append, takeDigits, h1, if_true, List.append_eq, h2]

/-- The integer tokenizer on a leading minus sign (definitional unfolding). -/
theorem parseIntTok_minus (X : List Char) :
    parseIntTok ('-' :: X)
      = (if (takeDigits X).1.isEmpty then none
         else some (-(digitsToNat (takeDigits X).1 : Int), (takeDigits X).2)) := rfl

/-- The integer tokenizer on a non-minus head. -/
theorem parseIntTok_cons (c : Char) (X : List Char) (h : c ≠ '-') :
    parseIntTok (c :: X)
      = (if (takeDigits (c :: X)).1.isEmpty then none
         else some ((digitsToNat (takeDigits (c :: X)).1 : Int), (takeDigits (c :: X)).2)) := by
  simp [parseIntTok, h]

/-- The integer token parser inverts `intChars` up to a boundary. -/
theorem parseIntTok_intChars (i : Int) (rest : List Char)
    (hrest : intBoundary rest = true) :
    parseIntTok (intChars i ++ rest) = some (i, rest) := by
  obtain ⟨c, t, hct, hcd⟩ := natChars_cons i.natAbs
  have hrun : takeDigits (natChars i.natAbs ++ rest) = (natChars i.natAbs, rest) :=
    takeDigits_digits_prefix hrest _ (natChars_digits _)
  have hempty : (natChars i.natAbs).isEmpty = false := by
    rw [hct]
    rfl
  have hval := digitsToNat_natChars i.natAbs
  by_cases hneg : i < 0
  · have harg : intChars i ++ rest = '-' :: (natChars i.natAbs ++ rest) := by
      simp [intChars, hneg]
    rw [harg, parseIntTok_minus, hrun]
    simp only [hempty, Bool.false_eq_true, if_false, hval]
    congr 1
    congr 1
    omega
  · have harg : intChars i ++ rest = c :: (t ++ rest) := by
      simp [intChars, hneg, hct]
    have hrun' : takeDigits (c :: (t ++ rest)) = (c :: t, rest) := by
      rw [show c :: (t ++ rest) = (c :: t) ++ rest by simp, ← hct]
      exact hrun
    rw [harg, parseIntTok_cons c _ (digit_char_facts hcd).1, hrun']
    simp only [List.isEmpty_cons, Bool.false_eq_true, if_false]
    rw [← hct, hval]
    congr 2
    omega

/-- Parsing one escaped character undoes `escapeChar`. -/
theorem parseStrBody_escape (c : Char) (hok : okStrChar c = true) (rest : List Char) :
    parseStrBody (escapeChar c ++ rest)
      = (match parseStrBody rest with
         | none => none
         | some (s, r) => some (c :: s, r)) := by
  by_cases h1 : c = '"'
  · subst h1; rfl
  · by_cases h2 : c = '\\'
    · subst h2; rfl
    · by_cases h3 : c = '\n'
      · subst h3; rfl
      · by_cases h4 : c = '\t'
        · subst h4; rfl
        · by_cases h5 : c = '\r'
          · subst h5; rfl
          · have hesc : escapeChar c = [c] := by
              simp [escapeChar, h1, h2, h3, h4, h5]
            have hctrl : ¬ c.toNat < 32 := by
              simp only [okStrChar, Bool.or_eq_true, decide_eq_true_eq,
                Bool.and_eq_true, beq_iff_eq] at hok
              rcases hok with ((⟨ha, -⟩ | h) | h) | h
              · omega
              · exact absurd h h3
              · exact absurd h h4
              · exact absurd h h5
            rw [hesc, List.cons_append, List.nil_append]
            rw [parseStrBody.eq_def]
            simp [h1, h2, hctrl]

/-- Parsing a serialized string body recovers it up to its closing quote. -/
theorem parseStrBody_dumps (s : List Char) (hs : s.all okStrChar = true)
    (rest : List Char) :
    parseStrBody (s.flatMap escapeChar ++ ('"' :: rest)) = some (s, rest) := by
  induction s with
  | nil =>
    show parseStrBody ([].flatMap escapeChar ++ '"' :: rest) = some ([], rest)
    rw [List.flatMap_nil, List.nil_append, parseStrBody.eq_def]
    simp
  | cons c cs ih =>
    simp only [List.all_cons, Bool.and_eq_true] at hs
    rw [List.flatMap_cons, List.append_assoc, parseStrBody_escape c hs.1, ih hs.2]

/-- One-step unfolding of `loadsVal` at successor fuel. -/
theorem loadsVal_succ (fuel : Nat) (cs : List Char) :
    loadsVal (fuel + 1) cs
      = (match cs.dropWhile isWsChar with
         | 'n' :: 'u' :: 'l' :: 'l' :: r => some (.jnull, r)
         | 't' :: 'r' :: 'u' :: 'e' :: r => some (.jbool true, r)
         | 'f' :: 'a' :: 'l' :: 's' :: 'e' :: r => some (.jbool false, r)
         | '"' :: r =>
           match parseStrBody r with
           | some (s, r') => some (.jstr s, r')
           | none => none
         | '[' :: r =>
           match r.dropWhile isWsChar with
           | ']' :: r' => some (.jarr [], r')
           | other =>
             match loadsItems fuel other with
             | some (xs, r') => some (.jarr xs, r')
             | none => none
         | '{' :: r =>
           match r.dropWhile isWsChar with
           | '}' :: r' => some (.jobj [], r')
           | other =>
             match loadsPairs fuel other with
             | some (kvs, r') => some (.jobj kvs, r')
             | none => none
         | other =>
           match parseIntTok other with
           | some (i, r) => some (.jint i, r)
           | none => none) := rfl

/-- One-step unfolding of `loadsItems` at successor fuel. -/
theorem loadsItems_succ (fuel : Nat) (cs : List Char) :
    loadsItems (fuel + 1) cs
      = (match loadsVal fuel cs with
         | none => none
         | some (v, r) =>
           match r.dropWhile isWsChar with
           | ',' :: r' =>
             (match loadsItems fuel r' with
              | some (vs, r'') => some (v :: vs, r'')
              | none => none)
           | ']' :: r' => some ([v], r')
           | _ => none) := rfl

/-- One-step unfolding of `loadsPairs` at successor fuel. -/
theorem loadsPairs_succ (fuel : Nat) (cs : List Char) :
    loadsPairs (fuel + 1) cs
      = (match cs.dropWhile isWsChar with
         | '"' :: r =>
           match parseStrBody r with
           | none => none
           | some (k, r1) =>
             match r1.dropWhile isWsChar with
             | ':' :: r2 =>
               match loadsVal fuel r2 with
               | none => none
               | some (v, r3) =>
                 match r3.dropWhile isWsChar with
                 | ',' :: r4 =>
                   (match loadsPairs fuel r4 with
                    | some (kvs, r5) => some ((k, v) :: kvs, r5)
                    | none => none)
                 | '}' :: r4 => some ([(k, v)], r4)
                 | _ => none
             | _ => none
         | _ => none) := rfl

/-- Dropping whitespace skips an all-whitespace prefix. -/
theorem dropWhile_ws_prefix {sp : List Char} (hsp : ∀ c ∈ sp, isWsChar c = true)
    (X : List Char) :
    (sp ++ X).dropWhile isWsChar = X.dropWhile isWsChar := by
  induction sp with
  | nil => rfl
  | cons c t ih =>
    have hc := hsp c (by simp)
    rw [List.cons_append, List.dropWhile_cons, if_pos hc]
    exact ih (fun x hx => hsp x (by simp [hx]))

/-- Every serialized value begins with a character that is neither
whitespace nor one of the closing delimiters. -/
theorem dumps_head (v : JVal) :
    ∃ c t, dumps v = c :: t ∧ isWsChar c = false ∧ c ≠ ']' ∧ c ≠ '}' ∧ c ≠ ',' := by
  cases v with
  | jnull => exact ⟨'n', _, rfl, by decide, by decide, by decide, by decide⟩
  | jbool b =>
    cases b with
    | true => exact ⟨'t', _, rfl, by decide, by decide, by decide, by decide⟩
    | false => exact ⟨'f', _, rfl, by decide, by decide, by decide, by decide⟩
  | jint i =>
    by_cases hneg : i < 0
    · refine ⟨'-', natChars i.natAbs, ?_, by decide, by decide, by decide, by decide⟩
      show intChars i = '-' :: natChars i.natAbs
      simp [intChars, hneg]
    · obtain ⟨c, t, hct, hcd⟩ := natChars_cons i.natAbs
      obtain ⟨-, hws, hbr, hbc, hcm, -⟩ := digit_char_facts hcd
      refine ⟨c, t, ?_, hws, hbr, hbc, hcm⟩
      show intChars i = c :: t
      simp [intChars, hneg, hct]
  | jstr s => exact ⟨'"', _, rfl, by decide, by decide, by decide, by decide⟩
  | jarr xs => exact ⟨'[', _, rfl, by decide, by decide, by decide, by decide⟩
  | jobj kvs => exact ⟨'{', _, rfl, by decide, by decide, by decide, by decide⟩

/-- The serialized form of a value followed by anything loses no leading
characters to the whitespace skipper. -/
theorem dropWhile_ws_dumps (v : JVal) (x : List Char) :
    (dumps v ++ x).dropWhile isWsChar = dumps v ++ x := by
  obtain ⟨c, t, h, hws, -, -, -⟩ := dumps_head v
  rw [h, List.cons_append, List.dropWhile_cons, if_neg (by simp [hws])]

/-- A serialized non-empty item list starts like its first value. -/
theorem dumpsItems_head (x : JVal) (xs : List JVal) :
    ∃ c t, dumpsItems (x :: xs) = c :: t ∧ isWsChar c = false ∧ c ≠ ']' := by
  obtain ⟨c, t, h, hws, hbr, -, -⟩ := dumps_head x
  cases xs with
  | nil => exact ⟨c, t, by simp [dumpsItems, h], hws, hbr⟩
  | cons y ys =>
    exact ⟨c, t ++ ',' :: ' ' :: dumpsItems (y :: ys), by simp [dumpsItems, h], hws, hbr⟩

/-- A serialized integer starts with a minus sign or a digit: not
whitespace and not the first character of any other token. -/
theorem intChars_head (i : Int) :
    ∃ c t, intChars i = c :: t ∧ isWsChar c = false
      ∧ c ≠ 'n' ∧ c ≠ 't' ∧ c ≠ 'f' ∧ c ≠ '"' ∧ c ≠ '[' ∧ c ≠ '{' := by
  by_cases hneg : i < 0
  · refine ⟨'-', natChars i.natAbs, by simp [intChars, hneg], by decide,
      by decide, by decide, by decide, by decide, by decide, by decide⟩
  · obtain ⟨c, t, hct, hcd⟩ := natChars_cons i.natAbs
    obtain ⟨-, hws, -, -, -, hn, htt, hff, hq, hlb, hlc⟩ := digit_char_facts hcd
    exact ⟨c, t, by simp [intChars, hneg, hct], hws, hn, htt, hff, hq, hlb, hlc⟩

/-- When the head is no keyword, string, array or object opener, `loadsVal`
falls through to the integer tokenizer. -/
theorem loadsVal_default (fuel : Nat) (sp : List Char)
    (hsp : ∀ c ∈ sp, isWsChar c = true) (c : Char) (t : List Char)
    (hws : isWsChar c = false) (hn : c ≠ 'n') (htt : c ≠ 't') (hff : c ≠ 'f')
    (hq : c ≠ '"') (hlb : c ≠ '[') (hlc : c ≠ '{') :
    loadsVal (fuel + 1) (sp ++ c :: t)
      = (match parseIntTok (c :: t) with
         | some (i, r) => some (.jint i, r)
         | none => none) := by
  rw [loadsVal_succ, dropWhile_ws_prefix hsp]
  rw [show (c :: t).dropWhile isWsChar = c :: t from by
    rw [List.dropWhile_cons, if_neg (by simp [hws])]]
  simp [hn, htt, hff, hq, hlb, hlc]

/-- A serialized non-empty entry list starts with the key's quote. -/
theorem dumpsPairs_head (kv : List Char × JVal) (kvs : List (List Char × JVal)) :
    ∃ t, dumpsPairs (kv :: kvs) = '"' :: t := by
  obtain ⟨k, v⟩ := kv
  cases kvs with
  | nil =>
    refine ⟨k.flatMap escapeChar ++ '"' :: ':' :: ' ' :: dumps v, ?_⟩
    simp [dumpsPairs, dumpStr]
  | cons p ps =>
    refine ⟨k.flatMap escapeChar
      ++ '"' :: ':' :: ' ' :: (dumps v ++ ',' :: ' ' :: dumpsPairs (p :: ps)), ?_⟩
    simp [dumpsPairs, dumpStr]

mutual
/-- Parsing a serialized well-formed value (after an optional whitespace
prefix) recovers exactly that value and leaves the remainder. -/
theorem rt_val : ∀ (v : JVal) (fuel : Nat) (sp rest : List Char),
    jwf v = true → (∀ c ∈ sp, isWsChar c = true) →
    (dumps v).length < fuel → intBoundary rest = true →
    loadsVal fuel (sp ++ (dumps v ++ rest)) = some (v, rest)
  | .jnull, fuel, sp, rest, _, hsp, hf, _ => by
    cases fuel with
    | zero => exact absurd hf (by omega)
    | succ f =>
      rw [loadsVal_succ, dropWhile_ws_prefix hsp, dropWhile_ws_dumps]
      rfl
  | .jbool true, fuel, sp, rest, _, hsp, hf, _ => by
    cases fuel with
    | zero => exact absurd hf (by omega)
    | succ f =>
      rw [loadsVal_succ, dropWhile_ws_prefix hsp, dropWhile_ws_dumps]
      rfl
  | .jbool false, fuel, sp, rest, _, hsp, hf, _ => by
    cases fuel with
    | zero => exact absurd hf (by omega)
    | succ f =>
      rw [loadsVal_succ, dropWhile_ws_prefix hsp, dropWhile_ws_dumps]
      rfl
  | .jint i, fuel, sp, rest, _, hsp, hf, hrest => by
    cases fuel with
    | zero => exact absurd hf (by omega)
    | succ f =>
      obtain ⟨c, t, hct, hws, hn, htt, hff, hq, hlb, hlc⟩ := intChars_head i
      have harg : dumps (JVal.jint i) ++ rest = c :: (t ++ rest) := by
        show intChars i ++ rest = _
        rw [hct, List.cons_append]
      rw [show sp ++ (dumps (JVal.jint i) ++ rest) = sp ++ c :: (t ++ rest) from by
        rw [harg]]
      rw [loadsVal_default f sp hsp c _ hws hn htt hff hq hlb hlc]
      rw [show c :: (t ++ rest) = intChars i ++ rest from by rw [hct, List.cons_append]]
      rw [parseIntTok_intChars i rest hrest]
  | .jstr s, fuel, sp, rest, hwf, hsp, hf, _ => by
    cases fuel with
    | zero => exact absurd hf (by omega)
    | succ f =>
      have hs : s.all okStrChar = true := by simpa [jwf] using hwf
      have harg : dumps (JVal.jstr s) ++ rest
          = '"' :: (s.flatMap escapeChar ++ ('"' :: rest)) := by
        show dumpStr s ++ rest = _
        simp [dumpStr]
      rw [loadsVal_succ, dropWhile_ws_prefix hsp, dropWhile_ws_dumps, harg]
      show (match parseStrBody (s.flatMap escapeChar ++ ('"' :: rest)) with
            | some (s, r') => some (JVal.jstr s, r')
            | none => none : Option (JVal × List Char)) = some (JVal.jstr s, rest)
      rw [parseStrBody_dumps s hs rest]
  | .jarr [], fuel, sp, rest, _, hsp, hf, _ => by
    cases fuel with
    | zero => exact absurd hf (by omega)
    | succ f =>
      have harg : dumps (JVal.jarr []) ++ rest = '[' :: (']' :: rest) := by
        show ('[' :: (dumpsItems [] ++ [']'])) ++ rest = _
        simp [dumpsItems]
      rw [loadsVal_succ, dropWhile_ws_prefix hsp, dropWhile_ws_dumps, harg]
      rfl
  | .jarr (x :: xs), fuel, sp, rest, hwf, hsp, hf, _ => by
    cases fuel with
    | zero => exact absurd hf (by omega)
    | succ f =>
      have hwf' : jwfItems (x :: xs) = true := by simpa [jwf] using hwf
      have harg : dumps (JVal.jarr (x :: xs)) ++ rest
          = '[' :: (dumpsItems (x :: xs) ++ (']' :: rest)) := by
        show ('[' :: (dumpsItems (x :: xs) ++ [']'])) ++ rest = _
        simp
      have hfl : (dumpsItems (x :: xs)).length + 1 < f := by
        have : (dumps (JVal.jarr (x :: xs))).length
            = (dumpsItems (x :: xs)).length + 2 := by
          show ('[' :: (dumpsItems (x :: xs) ++ [']'])).length = _
          simp
        omega
      rw [loadsVal_succ, dropWhile_ws_prefix hsp, dropWhile_ws_dumps, harg]
      show (match (dumpsItems (x :: xs) ++ (']' :: rest)).dropWhile isWsChar with
            | ']' :: r' => some (JVal.jarr [], r')
            | other =>
              match loadsItems f other with
              | some (xs, r') => some (JVal.jarr xs, r')
              | none => none : Option (JVal × List Char)) = some (JVal.jarr (x :: xs), rest)
      obtain ⟨c, t, hct, hws, hbr⟩ := dumpsItems_head x xs
      have hkey := rt_items x xs f [] rest hwf' (by intro c hc; simp at hc) hfl
      rw [List.nil_append] at hkey
      rw [hct, List.cons_append]
      rw [show (c :: (t ++ (']' :: rest))).dropWhile isWsChar = c :: (t ++ (']' :: rest))
        from by rw [List.dropWhile_cons, if_neg (by simp [hws])]]
      rw [hct, List.cons_append] at hkey
      simp [hbr, hkey]
  | .jobj [], fuel, sp, rest, _, hsp, hf, _ => by
    cases fuel with
    | zero => exact absurd hf (by omega)
    | succ f =>
      have harg : dumps (JVal.jobj []) ++ rest = '{' :: ('}' :: rest) := by
        show ('{' :: (dumpsPairs [] ++ ['}'])) ++ rest = _
        simp [dumpsPairs]
      rw [loadsVal_succ, dropWhile_ws_prefix hsp, dropWhile_ws_dumps, harg]
      rfl
  | .jobj (kv :: kvs), fuel, sp, rest, hwf, hsp, hf, _ => by
    cases fuel with
    | zero => exact absurd hf (by omega)
    | succ f =>
      have hwf' : jwfPairs (kv :: kvs) = true := by
        have h := hwf
        simp only [jwf, Bool.and_eq_true] at h
        exact h.1
      have harg : dumps (JVal.jobj (kv :: kvs)) ++ rest
          = '{' :: (dumpsPairs (kv :: kvs) ++ ('}' :: rest)) := by
        show ('{' :: (dumpsPairs (kv :: kvs) ++ ['}'])) ++ rest = _
        simp
      have hfl : (dumpsPairs (kv :: kvs)).length + 1 < f := by
        have : (dumps (JVal.jobj (kv :: kvs))).length
            = (dumpsPairs (kv :: kvs)).length + 2 := by
          show ('{' :: (dumpsPairs (kv :: kvs) ++ ['}'])).length = _
          simp
        omega
      rw [loadsVal_succ, dropWhile_ws_prefix hsp, dropWhile_ws_dumps, harg]
      show (match (dumpsPairs (kv :: kvs) ++ ('}' :: rest)).dropWhile isWsChar with
            | '}' :: r' => some (JVal.jobj [], r')
            | other =>
              match loadsPairs f other with
              | some (kvs, r') => some (JVal.jobj kvs, r')
              | none => none : Option (JVal × List Char)) = some (JVal.jobj (kv :: kvs), rest)
      obtain ⟨t, hct⟩ := dumpsPairs_head kv kvs
      have hkey := rt_pairs kv kvs f [] rest hwf' (by intro c hc; simp at hc) hfl
      rw [List.nil_append] at hkey
      rw [hct, List.cons_append]
      rw [show ('"' :: (t ++ ('}' :: rest))).dropWhile isWsChar = '"' :: (t ++ ('}' :: rest))
        from by rw [List.dropWhile_cons, if_neg (by decide)]]
      rw [hct, List.cons_append] at hkey
      simp [hkey]
termination_by v _ _ _ _ _ _ _ => sizeOf v

/-- Parsing serialized items (after an optional whitespace prefix) up to
the closing bracket recovers the item list. -/
theorem rt_items : ∀ (x : JVal) (xs : List JVal) (fuel : Nat) (sp rest : List Char),
    jwfItems (x :: xs) = true → (∀ c ∈ sp, isWsChar c = true) →
    (dumpsItems (x :: xs)).length + 1 < fuel →
    loadsItems fuel (sp ++ (dumpsItems (x :: xs) ++ (']' :: rest))) = some (x :: xs, rest)
  | x, [], fuel, sp, rest, hwf, hsp, hf => by
    cases fuel with
    | zero => exact absurd hf (by omega)
    | succ f =>
      have hwx : jwf x = true := by
        simp only [jwfItems, Bool.and_eq_true] at hwf
        exact hwf.1
      have hfx : (dumps x).length < f := by
        have heq : dumpsItems [x] = dumps x := by simp [dumpsItems]
        rw [heq] at hf
        omega
      rw [loadsItems_succ]
      rw [show sp ++ (dumpsItems [x] ++ (']' :: rest)) = sp ++ (dumps x ++ (']' :: rest))
        from by simp [dumpsItems]]
      rw [rt_val x f sp (']' :: rest) hwx hsp hfx rfl]
      rfl
  | x, y :: ys, fuel, sp, rest, hwf, hsp, hf => by
    cases fuel with
    | zero => exact absurd hf (by omega)
    | succ f =>
      have h := hwf
      simp only [jwfItems, Bool.and_eq_true] at h
      have hwx : jwf x = true := h.1
      have hwys : jwfItems (y :: ys) = true := by
        simp only [jwfItems, Bool.and_eq_true]
        exact h.2
      have hlen : (dumpsItems (x :: y :: ys)).length
          = (dumps x).length + 2 + (dumpsItems (y :: ys)).length := by
        show (dumps x ++ ',' :: ' ' :: dumpsItems (y :: ys)).length = _
        simp
        omega
      have hfx : (dumps x).length < f := by omega
      have hfy : (dumpsItems (y :: ys)).length + 1 < f := by omega
      rw [loadsItems_succ]
      rw [show sp ++ (dumpsItems (x :: y :: ys) ++ (']' :: rest))
          = sp ++ (dumps x ++ (',' :: ' ' :: (dumpsItems (y :: ys) ++ (']' :: rest))))
        from by simp [dumpsItems]]
      rw [rt_val x f sp (',' :: ' ' :: (dumpsItems (y :: ys) ++ (']' :: rest))) hwx hsp hfx rfl]
      have hkey := rt_items y ys f [' '] rest hwys
        (by intro c hc; simp at hc; rw [hc]; rfl) hfy
      show (match (',' :: ' ' :: (dumpsItems (y :: ys) ++ (']' :: rest))).dropWhile isWsChar with
            | ',' :: r' =>
              (match loadsItems f r' with
               | some (vs, r'') => some (x :: vs, r'')
               | none => none)
            | ']' :: r' => some ([x], r')
            | _ => none : Option (List JVal × List Char)) = some (x :: y :: ys, rest)
      rw [show (',' :: ' ' :: (dumpsItems (y :: ys) ++ (']' :: rest))).dropWhile isWsChar
          = ',' :: ' ' :: (dumpsItems (y :: ys) ++ (']' :: rest)) from by
        rw [List.dropWhile_cons, if_neg (by decide)]]
      show (match loadsItems f (' ' :: (dumpsItems (y :: ys) ++ (']' :: rest))) with
            | some (vs, r'') => some (x :: vs, r'')
            | none => none : Option (List JVal × List Char)) = some (x :: y :: ys, rest)
      rw [show ' ' :: (dumpsItems (y :: ys) ++ (']' :: rest))
          = [' '] ++ (dumpsItems (y :: ys) ++ (']' :: rest)) from rfl]
      rw [hkey]
termination_by x xs _ _ _ _ _ _ => sizeOf x + sizeOf xs

/-- Parsing serialized key-value entries (after an optional whitespace
prefix) up to the closing brace recovers the entry list. -/
theorem rt_pairs : ∀ (kv : List Char × JVal) (kvs : List (List Char × JVal))
    (fuel : Nat) (sp rest : List Char),
    jwfPairs (kv :: kvs) = true → (∀ c ∈ sp, isWsChar c = true) →
    (dumpsPairs (kv :: kvs)).length + 1 < fuel →
    loadsPairs fuel (sp ++ (dumpsPairs (kv :: kvs) ++ ('}' :: rest)))
      = some (kv :: kvs, rest)
  | (k, v), [], fuel, sp, rest, hwf, hsp, hf => by
    cases fuel with
    | zero => exact absurd hf (by omega)
    | succ f =>
      have h := hwf
      simp only [jwfPairs, Bool.and_eq_true] at h
      have hk : k.all okStrChar = true := h.1.1
      have hv : jwf v = true := h.1.2
      have hlen : (dumpsPairs [(k, v)]).length
          = (dumpStr k).length + 2 + (dumps v).length := by
        simp [dumpsPairs]
        omega
      have hfv : (dumps v).length < f := by omega
      have harg : dumpsPairs [(k, v)] ++ ('}' :: rest)
          = '"' :: (k.flatMap escapeChar
              ++ ('"' :: (':' :: (' ' :: (dumps v ++ ('}' :: rest)))))) := by
        simp [dumpsPairs, dumpStr]
      rw [loadsPairs_succ, dropWhile_ws_prefix hsp, harg]
      rw [show ('"' :: (k.flatMap escapeChar
          ++ ('"' :: (':' :: (' ' :: (dumps v ++ ('}' :: rest))))))).dropWhile isWsChar
          = '"' :: (k.flatMap escapeChar
              ++ ('"' :: (':' :: (' ' :: (dumps v ++ ('}' :: rest)))))) from by
        rw [List.dropWhile_cons, if_neg (by decide)]]
      show (match parseStrBody (k.flatMap escapeChar
              ++ ('"' :: (':' :: (' ' :: (dumps v ++ ('}' :: rest)))))) with
            | none => none
            | some (key, r1) =>
              match r1.dropWhile isWsChar with
              | ':' :: r2 =>
                match loadsVal f r2 with
                | none => none
                | some (w, r3) =>
                  match r3.dropWhile isWsChar with
                  | ',' :: r4 =>
                    (match loadsPairs f r4 with
                     | some (kvs, r5) => some ((key, w) :: kvs, r5)
                     | none => none)
                  | '}' :: r4 => some ([(key, w)], r4)
                  | _ => none
              | _ => none : Option (List (List Char × JVal) × List Char))
          = some ([(k, v)], rest)
      have hdw1 : (':' :: (' ' :: (dumps v ++ ('}' :: rest)))).dropWhile isWsChar
          = ':' :: (' ' :: (dumps v ++ ('}' :: rest))) := by
        rw [List.dropWhile_cons, if_neg (by decide)]
      have hval : loadsVal f (' ' :: (dumps v ++ ('}' :: rest))) = some (v, '}' :: rest) := by
        rw [show ' ' :: (dumps v ++ ('}' :: rest))
            = [' '] ++ (dumps v ++ ('}' :: rest)) from rfl]
        exact rt_val v f [' '] ('}' :: rest) hv
          (by intro c hc; simp at hc; rw [hc]; rfl) hfv rfl
      have hdw2 : ('}' :: rest).dropWhile isWsChar = '}' :: rest := by
        rw [List.dropWhile_cons, if_neg (by decide)]
      rw [parseStrBody_dumps k hk _]
      simp only [hdw1, hval, hdw2]
  | (k, v), p :: ps, fuel, sp, rest, hwf, hsp, hf => by
    cases fuel with
    | zero => exact absurd hf (by omega)
    | succ f =>
      have h := hwf
      simp only [jwfPairs, Bool.and_eq_true] at h
      have hk : k.all okStrChar = true := h.1.1
      have hv : jwf v = true := h.1.2
      have hwps : jwfPairs (p :: ps) = true := by
        simp only [jwfPairs, Bool.and_eq_true]
        exact h.2
      have hlen : (dumpsPairs ((k, v) :: p :: ps)).length
          = (dumpStr k).length + 2 + (dumps v).length + 2
            + (dumpsPairs (p :: ps)).length := by
        simp [dumpsPairs]
        omega
      have hfv : (dumps v).length < f := by omega
      have hfp : (dumpsPairs (p :: ps)).length + 1 < f := by omega
      have harg : dumpsPairs ((k, v) :: p :: ps) ++ ('}' :: rest)
          = '"' :: (k.flatMap escapeChar
              ++ ('"' :: (':' :: (' ' :: (dumps v
                ++ (',' :: (' ' :: (dumpsPairs (p :: ps) ++ ('}' :: rest))))))))) := by
        simp [dumpsPairs, dumpStr]
      rw [loadsPairs_succ, dropWhile_ws_prefix hsp, harg]
      rw [show ('"' :: (k.flatMap escapeChar
          ++ ('"' :: (':' :: (' ' :: (dumps v
            ++ (',' :: (' ' :: (dumpsPairs (p :: ps) ++ ('}' :: rest)))))))))).dropWhile isWsChar
          = '"' :: (k.flatMap escapeChar
              ++ ('"' :: (':' :: (' ' :: (dumps v
                ++ (',' :: (' ' :: (dumpsPairs (p :: ps) ++ ('}' :: rest))))))))) from by
        rw [List.dropWhile_cons, if_neg (by decide)]]
      show (match parseStrBody (k.flatMap escapeChar
              ++ ('"' :: (':' :: (' ' :: (dumps v
                ++ (',' :: (' ' :: (dumpsPairs (p :: ps) ++ ('}' :: rest))))))))) with
            | none => none
            | some (key, r1) =>
              match r1.dropWhile isWsChar with
              | ':' :: r2 =>
                match loadsVal f r2 with
                | none => none
                | some (w, r3) =>
                  match r3.dropWhile isWsChar with
                  | ',' :: r4 =>
                    (match loadsPairs f r4 with
                     | some (kvs, r5) => some ((key, w) :: kvs, r5)
                     | none => none)
                  | '}' :: r4 => some ([(key, w)], r4)
                  | _ => none
              | _ => none : Option (List (List Char × JVal) × List Char))
          = some ((k, v) :: p :: ps, rest)
      have hdw1 : (':' :: (' ' :: (dumps v
          ++ (',' :: (' ' :: (dumpsPairs (p :: ps) ++ ('}' :: rest))))))).dropWhile isWsChar
          = ':' :: (' ' :: (dumps v
              ++ (',' :: (' ' :: (dumpsPairs (p :: ps) ++ ('}' :: rest)))))) := by
        rw [List.dropWhile_cons, if_neg (by decide)]
      have hval : loadsVal f (' ' :: (dumps v
            ++ (',' :: (' ' :: (dumpsPairs (p :: ps) ++ ('}' :: rest))))))
          = some (v, ',' :: (' ' :: (dumpsPairs (p :: ps) ++ ('}' :: rest)))) := by
        rw [show ' ' :: (dumps v ++ (',' :: (' ' :: (dumpsPairs (p :: ps) ++ ('}' :: rest)))))
            = [' '] ++ (dumps v ++ (',' :: (' ' :: (dumpsPairs (p :: ps) ++ ('}' :: rest)))))
          from rfl]
        exact rt_val v f [' '] (',' :: (' ' :: (dumpsPairs (p :: ps) ++ ('}' :: rest)))) hv
          (by intro c hc; simp at hc; rw [hc]; rfl) hfv rfl
      have hdw2 : (',' :: (' ' :: (dumpsPairs (p :: ps) ++ ('}' :: rest)))).dropWhile isWsChar
          = ',' :: (' ' :: (dumpsPairs (p :: ps) ++ ('}' :: rest))) := by
        rw [List.dropWhile_cons, if_neg (by decide)]
      have hpairs : loadsPairs f (' ' :: (dumpsPairs (p :: ps) ++ ('}' :: rest)))
          = some (p :: ps, rest) := by
        rw [show ' ' :: (dumpsPairs (p :: ps) ++ ('}' :: rest))
            = [' '] ++ (dumpsPairs (p :: ps) ++ ('}' :: rest)) from rfl]
        exact rt_pairs p ps f [' '] rest hwps
          (by intro c hc; simp at hc; rw [hc]; rfl) hfp
      rw [parseStrBody_dumps k hk _]
      simp only [hdw1, hval, hdw2, hpairs]
termination_by kv kvs _ _ _ _ _ _ => sizeOf kv + sizeOf kvs
end

/-- `json.loads` of a serialized well-formed value returns exactly it. -/
theorem loads_dumps (v : JVal) (h : jwf v = true) : loads (dumps v) = some v := by
  have hval := rt_val v ((dumps v).length + 1) [] [] h (by intro c hc; simp at hc)
    (by omega) rfl
  rw [List.nil_append, List.append_nil] at hval
  rw [loads, hval]
  rfl

/-- Every serialized value ends with a non-whitespace character. -/
theorem dumps_last (v : JVal) :
    ∃ c t, dumps v = t ++ [c] ∧ isWsChar c = false := by
  cases v with
  | jnull => exact ⟨'l', ['n', 'u', 'l'], rfl, by decide⟩
  | jbool b =>
    cases b with
    | true => exact ⟨'e', ['t', 'r', 'u'], rfl, by decide⟩
    | false => exact ⟨'e', ['f', 'a', 'l', 's'], rfl, by decide⟩
  | jint i =>
    obtain ⟨d, ds, hds⟩ : ∃ d ds, natDigitsRev i.natAbs = d :: ds := by
      cases h : natDigitsRev i.natAbs with
      | nil =>
        exact absurd h (by rw [natDigitsRev]; exact natDigitsRevGo_ne_nil _ _)
      | cons d ds => exact ⟨d, ds, rfl⟩
    have hdd : d.isDigit = true := by
      have := natDigitsRevGo_digits i.natAbs i.natAbs le_rfl d
      rw [← natDigitsRev, hds] at this
      exact this (by simp)
    refine ⟨d, (if i < 0 then ['-'] else []) ++ ds.reverse, ?_, (digit_char_facts hdd).2.1⟩
    show intChars i = _
    rw [intChars, natChars, hds]
    simp
  | jstr s => exact ⟨'"', '"' :: s.flatMap escapeChar, by simp [dumps, dumpStr], by decide⟩
  | jarr xs => exact ⟨']', '[' :: dumpsItems xs, by simp [dumps], by decide⟩
  | jobj kvs => exact ⟨'}', '{' :: dumpsPairs kvs, by simp [dumps], by decide⟩

/-- `str.strip()` leaves a serialized value untouched. -/
theorem stripChars_dumps (v : JVal) : stripChars (dumps v) = dumps v := by
  obtain ⟨c, t, hd, hws⟩ := dumps_last v
  have h1 : (dumps v).dropWhile isWsChar = dumps v := by
    obtain ⟨c0, t0, hd0, hws0, -, -, -⟩ := dumps_head v
    rw [hd0, List.dropWhile_cons, if_neg (by simp [hws0])]
  rw [stripChars, h1, hd, List.reverse_append, List.reverse_singleton,
    List.singleton_append, List.dropWhile_cons, if_neg (by simp [hws]),
    List.reverse_cons, List.reverse_reverse, ← hd]

/-- C3, amended: `parse_message` returns the error value (`None`) exactly
for text that is not well-formed JSON. A well-formed frame always decodes
to a message — even when the `type` field is missing or unrecognized or a
type-specific field is absent; those conditions are left to the
dispatcher, which drops such messages without raising. -/
theorem parse_message_wellformed_total (v : JVal) (h : jwf v = true) :
    parse_message (dumps v) = some v := by
  rw [parse_message, stripChars_dumps, loads_dumps v h]

/-- Witness for C3's amended form: a frame with no `type` field at all
still decodes to a message value. -/
theorem parse_message_wellformed_total_witness :
    parse_message (dumps (JVal.jobj [("x".toList, JVal.jint 1)]))
      = some (JVal.jobj [("x".toList, JVal.jint 1)]) :=
  parse_message_wellformed_total (JVal.jobj [("x".toList, JVal.jint 1)]) (by decide)

/-- C3 counterexample: the frame `{"x": 1}` is well-formed JSON with no
`type` field — the claim requires `ParseError` for it, but
`parse_message` decodes it to a message; and the frame `not json` is the
only kind of input that yields the error value. -/
theorem parse_message_missing_type_cex :
    parse_message ("\x7b\"x\": 1\x7d".toList) = some (JVal.jobj [("x".toList, JVal.jint 1)])
    ∧ (dictGet [("x".toList, JVal.jint 1)] ("type".toList)).isNone = true
    ∧ parse_message ("not json".toList) = none :=
  ⟨rfl, rfl, rfl⟩

/-- Inserting a fresh key into a Python dict appends it. -/
theorem dictInsert_fresh (base : List (List Char × JVal)) (k : List Char) (v : JVal)
    (h : ∀ q ∈ base, q.1 ≠ k) : dictInsert base k v = base ++ [(k, v)] := by
  have hany : base.any (fun p => p.1 == k) = false := by
    rw [List.any_eq_false]
    intro p hp
    simp only [beq_iff_eq]
    exact h p hp
  rw [dictInsert, hany]
  simp

/-- `{**base, **data}` with all of `data`'s keys fresh appends `data`. -/
theorem dictExtend_fresh : ∀ (data base : List (List Char × JVal)),
    (∀ p ∈ data, ∀ q ∈ base, p.1 ≠ q.1) → (data.map Prod.fst).Nodup →
    dictExtend base data = base ++ data
  | [], base, _, _ => by simp [dictExtend]
  | (k, v) :: rest, base, hdisj, hnd => by
    have hput : dictInsert base k v = base ++ [(k, v)] :=
      dictInsert_fresh base k v (fun q hq => (hdisj (k, v) (by simp) q hq).symm)
    have hdisj' : ∀ p ∈ rest, ∀ q ∈ base ++ [(k, v)], p.1 ≠ q.1 := by
      intro p hp q hq
      rcases List.mem_append.mp hq with hq1 | hq2
      · exact hdisj p (by simp [hp]) q hq1
      · have hq' : q = (k, v) := by simpa using hq2
        subst hq'
        have hk : k ∉ rest.map Prod.fst := by
          have := hnd
          simp only [List.map_cons, List.nodup_cons] at this
          exact this.1
        intro hcon
        simp only at hcon
        exact hk (hcon ▸ List.mem_map_of_mem Prod.fst hp)
    have hnd' : (rest.map Prod.fst).Nodup := by
      have := hnd
      simp only [List.map_cons, List.nodup_cons] at this
      exact this.2
    have hrec := dictExtend_fresh rest (base ++ [(k, v)]) hdisj' hnd'
    show List.foldl (fun acc p => dictInsert acc p.1 p.2) base ((k, v) :: rest)
        = base ++ (k, v) :: rest
    rw [List.foldl_cons]
    show dictExtend (dictInsert base k v) rest = _
    rw [hput, hrec, List.append_assoc, List.singleton_append]

/-- A fold looking for a key that never occurs keeps its accumulator. -/
theorem dictGet_skip : ∀ (data : List (List Char × JVal)) (acc : Option JVal)
    (k : List Char), (∀ p ∈ data, p.1 ≠ k) →
    data.foldl (fun acc p => if p.1 == k then some p.2 else acc) acc = acc
  | [], _, _, _ => rfl
  | p :: rest, acc, k, h => by
    rw [List.foldl_cons, if_neg (by simp [h p (by simp)])]
    exact dictGet_skip rest acc k (fun q hq => h q (by simp [hq]))

/-- Looking up a key that is absent from the appended suffix reads the
prefix dict. -/
theorem dictGet_append_skip (base data : List (List Char × JVal)) (k : List Char)
    (h : ∀ p ∈ data, p.1 ≠ k) :
    dictGet (base ++ data) k = dictGet base k := by
  rw [dictGet, List.foldl_append]
  exact dictGet_skip data _ k h

/-- Looking up a bound key of a duplicate-free dict gives its value. -/
theorem dictGet_mem_nodup : ∀ (data : List (List Char × JVal)) (acc : Option JVal)
    (k : List Char) (v : JVal), (k, v) ∈ data → (data.map Prod.fst).Nodup →
    data.foldl (fun acc p => if p.1 == k then some p.2 else acc) acc = some v
  | [], _, _, _, hmem, _ => absurd hmem (List.not_mem_nil _)
  | (k', v') :: rest, acc, k, v, hmem, hnd => by
    have hnd1 : k' ∉ rest.map Prod.fst := by
      have := hnd
      simp only [List.map_cons, List.nodup_cons] at this
      exact this.1
    have hnd2 : (rest.map Prod.fst).Nodup := by
      have := hnd
      simp only [List.map_cons, List.nodup_cons] at this
      exact this.2
    rcases List.mem_cons.mp hmem with heq | hmem'
    · obtain ⟨rfl, rfl⟩ : k = k' ∧ v = v' := by
        constructor <;> (cases heq; rfl)
      rw [List.foldl_cons, if_pos (by simp)]
      exact dictGet_skip rest (some v) k
        (fun p hp hc => hnd1 (by rw [← hc]; exact List.mem_map_of_mem Prod.fst hp))
    · rw [List.foldl_cons]
      exact dictGet_mem_nodup rest _ k v hmem' hnd2

/-- C2: decoding the encoded form of a message reproduces every field of
it. For any supported type tag and any payload with well-formed,
distinct field names (none clashing with the injected keys),
`parse_message (create_message ...)` is exactly the object holding the
type, the injected timestamp, and the payload fields in order; looking
up the type or any payload field returns precisely what was encoded. -/
theorem create_parse_roundtrip (msg_type : List Char) (ts : Int)
    (data : List (List Char × JVal))
    (hwf : jwf (JVal.jobj ([("type".toList, JVal.jstr msg_type),
        ("timestamp".toList, JVal.jint ts)] ++ data)) = true)
    (hfresh : ∀ p ∈ data, p.1 ≠ "type".toList ∧ p.1 ≠ "timestamp".toList) :
    parse_message (create_message msg_type ts data)
      = some (JVal.jobj ([("type".toList, JVal.jstr msg_type),
          ("timestamp".toList, JVal.jint ts)] ++ data))
    ∧ (∀ kv ∈ data, dictGet ([("type".toList, JVal.jstr msg_type),
          ("timestamp".toList, JVal.jint ts)] ++ data) kv.1 = some kv.2)
    ∧ dictGet ([("type".toList, JVal.jstr msg_type),
          ("timestamp".toList, JVal.jint ts)] ++ data) ("type".toList)
        = some (JVal.jstr msg_type) := by
  have hnodup : ((([("type".toList, JVal.jstr msg_type),
      ("timestamp".toList, JVal.jint ts)] ++ data)).map Prod.fst).Nodup := by
    have h := hwf
    simp only [jwf, Bool.and_eq_true, decide_eq_true_eq] at h
    exact h.2
  have hnd_data : (data.map Prod.fst).Nodup := by
    rw [List.map_append] at hnodup
    exact hnodup.of_append_right
  have hdisj : ∀ p ∈ data, ∀ q ∈ [("type".toList, JVal.jstr msg_type),
      ("timestamp".toList, JVal.jint ts)], p.1 ≠ q.1 := by
    intro p hp q hq
    rcases List.mem_cons.mp hq with rfl | hq2
    · exact (hfresh p hp).1
    · have : q = ("timestamp".toList, JVal.jint ts) := by simpa using hq2
      subst this
      exact (hfresh p hp).2
  have hmerge : dictExtend [("type".toList, JVal.jstr msg_type),
      ("timestamp".toList, JVal.jint ts)] data
      = [("type".toList, JVal.jstr msg_type),
          ("timestamp".toList, JVal.jint ts)] ++ data :=
    dictExtend_fresh data _ hdisj hnd_data
  refine ⟨?_, ?_, ?_⟩
  · rw [create_message, hmerge]
    exact parse_message_wellformed_total _ hwf
  · intro kv hkv
    rw [dictGet]
    have : ((kv.1, kv.2) : List Char × JVal) ∈ [("type".toList, JVal.jstr msg_type),
        ("timestamp".toList, JVal.jint ts)] ++ data := by
      simp [hkv]
    exact dictGet_mem_nodup _ none kv.1 kv.2 this hnodup
  · rw [dictGet_append_skip _ data _ (fun p hp => (hfresh p hp).1)]
    rfl

/-- Witness for C2 at a concrete `ai_move`-shaped message. -/
theorem create_parse_roundtrip_witness :
    parse_message (create_message "ai_move".toList 1700000000
        [("from".toList, JVal.jstr "E7".toList), ("to".toList, JVal.jstr "E5".toList)])
      = some (JVal.jobj ([("type".toList, JVal.jstr "ai_move".toList),
          ("timestamp".toList, JVal.jint 1700000000)]
          ++ [("from".toList, JVal.jstr "E7".toList), ("to".toList, JVal.jstr "E5".toList)]))
    ∧ (∀ kv ∈ [("from".toList, JVal.jstr "E7".toList), ("to".toList, JVal.jstr "E5".toList)],
        dictGet ([("type".toList, JVal.jstr "ai_move".toList),
          ("timestamp".toList, JVal.jint 1700000000)]
          ++ [("from".toList, JVal.jstr "E7".toList), ("to".toList, JVal.jstr "E5".toList)]) kv.1
          = some kv.2)
    ∧ dictGet ([("type".toList, JVal.jstr "ai_move".toList),
          ("timestamp".toList, JVal.jint 1700000000)]
          ++ [("from".toList, JVal.jstr "E7".toList), ("to".toList, JVal.jstr "E5".toList)])
        ("type".toList) = some (JVal.jstr "ai_move".toList) :=
  create_parse_roundtrip "ai_move".toList 1700000000
    [("from".toList, JVal.jstr "E7".toList), ("to".toList, JVal.jstr "E5".toList)]
    (by decide) (by decide)
